import Mathlib

/-!
Verification of the superbook-pdf image-analysis algorithms.

This file gives a shallow embedding in Lean 4 of the parts of the
`superbook-pdf` Rust crate that the checked claims are about, together with
theorems settling those claims.

Modelling conventions, used throughout:

* Machine integers (`u8`, `u32`, `usize`, `i32`, `i64`) are modelled as `ℕ`
  or `ℤ`; where the Rust code can wrap (release-mode two's-complement
  overflow) an explicit reduction (`wrap32`, `toI32`) is applied.
  Rust's saturating casts and `saturating_sub` are modelled by the
  truncated `ℕ` subtraction and explicit clamping.
* IEEE floating point (`f32`, `f64`) is modelled as exact rational
  arithmetic over `ℚ`; decimal literals in the source become the
  corresponding rationals.  `f64::sqrt` of a nonnegative integer that is
  immediately truncated to an integer is modelled by `Nat.sqrt` (the
  correctly rounded square root of `n` can never round up across the next
  integer, so truncation agrees with `Nat.sqrt`).  Where a transcendental
  function's value can reach the result (`exp` in the Gaussian kernel,
  `sqrt` of a variance), the function is taken as an explicit parameter,
  and the theorems hold for every choice of it.
* Rust's `sort_unstable` on numeric vectors is modelled by
  `List.insertionSort (· ≤ ·)` (same sorted result on `ℕ`).
* Integer division on `ℤ` uses `Int.tdiv` (truncation towards zero,
  Rust's semantics).
-/

namespace SuperbookPdf

/-- Reduction of a natural number modulo `2^32`, the wrap of a Rust `u32`
addition in release mode. -/
def wrap32 (n : ℕ) : ℕ := n % 4294967296

theorem wrap32_eq_self {n : ℕ} (h : n < 4294967296) : wrap32 n = n :=
  Nat.mod_eq_of_lt h

/-- Interpretation of a `usize`/`u32` value as an `i32` (`as i32` cast):
reduce modulo `2^32` and read the result as a two's-complement signed
value. -/
def toI32 (n : ℕ) : ℤ :=
  let m := n % 4294967296
  if m < 2147483648 then (m : ℤ) else (m : ℤ) - 4294967296

theorem toI32_eq_self {n : ℕ} (h : n < 2147483648) : toI32 n = (n : ℤ) := by
  unfold toI32
  have h2 : n < 4294967296 := lt_trans h (by norm_num)
  simp only [Nat.mod_eq_of_lt h2]
  rw [if_pos h]

-- ============================================================
-- margin/group.rs : Tukey-fence group crop analysis
-- ============================================================

/-- Modelled from the spec: `ContentRect` lives in the missing
`margin/types.rs`; the spec's data model and every use in
`margin/group.rs` give it `u32` fields `x`, `y`, `width`, `height`. -/
structure ContentRect where
  x : ℕ
  y : ℕ
  width : ℕ
  height : ℕ
deriving DecidableEq, Repr

/-- Bounding box with page information (`PageBoundingBox`). -/
structure PageBoundingBox where
  page_number : ℕ
  bounding_box : ContentRect
  is_odd : Bool
deriving DecidableEq, Repr

namespace PageBoundingBox

/-- `PageBoundingBox::new`. -/
def new (page_number : ℕ) (bounding_box : ContentRect) : PageBoundingBox :=
  ⟨page_number, bounding_box, page_number % 2 == 1⟩

/-- `PageBoundingBox::is_valid`: non-zero area. -/
def is_valid (b : PageBoundingBox) : Bool :=
  decide (0 < b.bounding_box.width) && decide (0 < b.bounding_box.height)

/-- `PageBoundingBox::right`: `x + width` as a `u32` addition. -/
def right (b : PageBoundingBox) : ℕ :=
  wrap32 (b.bounding_box.x + b.bounding_box.width)

/-- `PageBoundingBox::bottom`: `y + height` as a `u32` addition. -/
def bottom (b : PageBoundingBox) : ℕ :=
  wrap32 (b.bounding_box.y + b.bounding_box.height)

end PageBoundingBox

/-- Group crop region result (`GroupCropRegion`). -/
structure GroupCropRegion where
  left : ℕ
  top : ℕ
  width : ℕ
  height : ℕ
  inlier_count : ℕ
  total_count : ℕ
deriving DecidableEq, Repr

/-- The `Default` value of `GroupCropRegion` (all fields zero). -/
def GroupCropRegion.defaultValue : GroupCropRegion := ⟨0, 0, 0, 0, 0, 0⟩

namespace GroupCropAnalyzer

/-- Constant `TUKEY_K = 1.5`. -/
def TUKEY_K : ℚ := 3 / 2

/-- Constant `MIN_INLIER_RATIO = 0.5`. -/
def MIN_INLIER_RATIO : ℚ := 1 / 2

/-- Constant `MIN_INLIER_COUNT = 3`. -/
def MIN_INLIER_COUNT : ℕ := 3

/-- `GroupCropAnalyzer::percentile`: linear-interpolation percentile of an
ascending list (`f64` arithmetic modelled over `ℚ`, `floor()/ceil() as
usize` via `Int.floor`/`Int.ceil` and `Int.toNat`). -/
def percentile (sorted_values : List ℕ) (p : ℚ) : ℚ :=
  if sorted_values.isEmpty then 0
  else if sorted_values.length = 1 then (sorted_values.getD 0 0 : ℚ)
  else
    let idx : ℚ := p * ((sorted_values.length - 1 : ℕ) : ℚ)
    let lo : ℕ := (Int.floor idx).toNat
    let hi : ℕ := (Int.ceil idx).toNat
    if lo = hi then (sorted_values.getD lo 0 : ℚ)
    else
      let frac : ℚ := idx - (lo : ℚ)
      (sorted_values.getD lo 0 : ℚ) +
        ((sorted_values.getD hi 0 : ℚ) - (sorted_values.getD lo 0 : ℚ)) * frac

/-- `GroupCropAnalyzer::calculate_iqr`: returns `(Q1, Q3, IQR)` with the
IQR forced to be at least 1. -/
def calculate_iqr (sorted_values : List ℕ) : ℚ × ℚ × ℚ :=
  if sorted_values.isEmpty then (0, 0, 1)
  else
    let q1 := percentile sorted_values (1 / 4)
    let q3 := percentile sorted_values (3 / 4)
    (q1, q3, max (q3 - q1) 1)

/-- `GroupCropAnalyzer::is_outlier`: Tukey fence test. -/
def is_outlier (value : ℕ) (q1 q3 iqr : ℚ) : Bool :=
  decide ((value : ℚ) < q1 - TUKEY_K * iqr) || decide (q3 + TUKEY_K * iqr < (value : ℚ))

/-- `GroupCropAnalyzer::median_u32`.  The even-length case adds two `u32`
values (which can wrap) before halving. -/
def median_u32 (values : List ℕ) : ℕ :=
  if values.isEmpty then 0
  else
    let sorted := values.insertionSort (· ≤ ·)
    let n := sorted.length
    if n % 2 = 1 then sorted.getD (n / 2) 0
    else wrap32 (sorted.getD (n / 2 - 1) 0 + sorted.getD (n / 2) 0) / 2

/-- The Tukey-fence inlier sublist of `valid` (the filter computed inline in
`decide_group_crop_region` between lines 146 and 173 of
`margin/group.rs`): boxes none of whose four edges is an outlier. -/
def tukeyInliers (valid : List PageBoundingBox) : List PageBoundingBox :=
  let lefts := (valid.map (·.bounding_box.x)).insertionSort (· ≤ ·)
  let tops := (valid.map (·.bounding_box.y)).insertionSort (· ≤ ·)
  let rights := (valid.map (·.right)).insertionSort (· ≤ ·)
  let bottoms := (valid.map (·.bottom)).insertionSort (· ≤ ·)
  let ql := calculate_iqr lefts
  let qt := calculate_iqr tops
  let qr := calculate_iqr rights
  let qb := calculate_iqr bottoms
  valid.filter (fun b =>
    !(is_outlier b.bounding_box.x ql.1 ql.2.1 ql.2.2) &&
    !(is_outlier b.bounding_box.y qt.1 qt.2.1 qt.2.2) &&
    !(is_outlier b.right qr.1 qr.2.1 qr.2.2) &&
    !(is_outlier b.bottom qb.1 qb.2.1 qb.2.2))

/-- Median crop rectangle of a list of boxes, with the given total count
(lines 184-206 of `margin/group.rs`): medians of the four edges, width and
height by saturating subtraction. -/
def regionOfBoxes (boxes : List PageBoundingBox) (total : ℕ) : GroupCropRegion :=
  let left := median_u32 (boxes.map (·.bounding_box.x))
  let top := median_u32 (boxes.map (·.bounding_box.y))
  let right := median_u32 (boxes.map (·.right))
  let bottom := median_u32 (boxes.map (·.bottom))
  ⟨left, top, right - left, bottom - top, boxes.length, total⟩

/-- `GroupCropAnalyzer::decide_group_crop_region`. -/
def decide_group_crop_region (bounding_boxes : List PageBoundingBox) : GroupCropRegion :=
  if bounding_boxes.isEmpty then GroupCropRegion.defaultValue
  else
    let valid := bounding_boxes.filter (·.is_valid)
    if valid.isEmpty then GroupCropRegion.defaultValue
    else
      let inliers := tukeyInliers valid
      let use_inliers :=
        if MIN_INLIER_COUNT ≤ inliers.length ∧
            (valid.length : ℚ) * MIN_INLIER_RATIO ≤ (inliers.length : ℚ)
        then inliers else valid
      regionOfBoxes use_inliers bounding_boxes.length

end GroupCropAnalyzer

namespace GroupCropAnalyzer

theorem ratio_cond_iff (a b : ℕ) :
    ((a : ℚ) * MIN_INLIER_RATIO ≤ (b : ℚ)) ↔ a ≤ 2 * b := by
  unfold MIN_INLIER_RATIO
  constructor
  · intro h
    have h2 : (a : ℚ) ≤ 2 * (b : ℚ) := by linarith
    exact_mod_cast h2
  · intro h
    have h2 : (a : ℚ) ≤ 2 * (b : ℚ) := by exact_mod_cast h
    linarith

/-- C1 (amended): for every list of page bounding boxes with at least one
valid (non-zero-area) box, `decide_group_crop_region` falls back from the
Tukey-fence inliers to all valid boxes exactly when the inlier count is
less than 3 or the inlier ratio is less than 1/2 (the code's
`MIN_INLIER_RATIO` is 0.5); otherwise the final rectangle is the median
rectangle of the inliers only. -/
theorem decide_group_crop_fallback_iff (bbs : List PageBoundingBox)
    (h : bbs.filter (·.is_valid) ≠ []) :
    decide_group_crop_region bbs =
      (if 3 ≤ (tukeyInliers (bbs.filter (·.is_valid))).length ∧
          (bbs.filter (·.is_valid)).length ≤ 2 * (tukeyInliers (bbs.filter (·.is_valid))).length
       then regionOfBoxes (tukeyInliers (bbs.filter (·.is_valid))) bbs.length
       else regionOfBoxes (bbs.filter (·.is_valid)) bbs.length) := by
  have hbbs : ¬ bbs.isEmpty := by
    intro he
    rw [List.isEmpty_iff] at he
    subst he
    simp at h
  have hv : ¬ (bbs.filter (·.is_valid)).isEmpty := by
    rwa [List.isEmpty_iff]
  unfold decide_group_crop_region
  rw [if_neg hbbs, if_neg hv]
  simp only [MIN_INLIER_COUNT, ratio_cond_iff]
  split <;> rfl

/-- Witness for C1 at a concrete input: a single valid box. -/
theorem decide_group_crop_fallback_iff_witness :
    ([PageBoundingBox.new 1 ⟨10, 20, 30, 40⟩].filter (·.is_valid) ≠ []) ∧
    decide_group_crop_region [PageBoundingBox.new 1 ⟨10, 20, 30, 40⟩] =
      (if 3 ≤ (tukeyInliers ([PageBoundingBox.new 1 ⟨10, 20, 30, 40⟩].filter (·.is_valid))).length ∧
          ([PageBoundingBox.new 1 ⟨10, 20, 30, 40⟩].filter (·.is_valid)).length ≤
            2 * (tukeyInliers ([PageBoundingBox.new 1 ⟨10, 20, 30, 40⟩].filter (·.is_valid))).length
       then regionOfBoxes (tukeyInliers ([PageBoundingBox.new 1 ⟨10, 20, 30, 40⟩].filter (·.is_valid)))
              [PageBoundingBox.new 1 ⟨10, 20, 30, 40⟩].length
       else regionOfBoxes ([PageBoundingBox.new 1 ⟨10, 20, 30, 40⟩].filter (·.is_valid))
              [PageBoundingBox.new 1 ⟨10, 20, 30, 40⟩].length) :=
  ⟨by decide, decide_group_crop_fallback_iff _ (by decide)⟩

/-- Evaluation helper: when both interpolation endpoints hold the same
value `c`, the percentile is `c`. -/
theorem percentile_const_of_getD (sorted_values : List ℕ) (p : ℚ) (c : ℕ)
    (h0 : ¬ sorted_values.isEmpty = true) (h1 : ¬ sorted_values.length = 1)
    (hlo : sorted_values.getD (Int.floor (p * ((sorted_values.length - 1 : ℕ) : ℚ))).toNat 0 = c)
    (hhi : sorted_values.getD (Int.ceil (p * ((sorted_values.length - 1 : ℕ) : ℚ))).toNat 0 = c) :
    percentile sorted_values p = c := by
  unfold percentile
  rw [if_neg h0, if_neg h1]
  by_cases heq : (Int.floor (p * ((sorted_values.length - 1 : ℕ) : ℚ))).toNat
      = (Int.ceil (p * ((sorted_values.length - 1 : ℕ) : ℚ))).toNat
  · simp only [heq, if_pos]
    rw [hhi]
  · simp only [heq, if_neg, ite_false]
    rw [hlo, hhi]
    ring

/-- Evaluation helper: the first quartile of a sorted 7-element list whose
first six entries agree. -/
theorem percentile_q1_sorted7 (c d : ℕ) :
    percentile [c, c, c, c, c, c, d] (1 / 4) = c := by
  apply percentile_const_of_getD
  · simp
  · simp
  · rw [show (Int.floor ((1 : ℚ) / 4 * (([c, c, c, c, c, c, d].length - 1 : ℕ) : ℚ))).toNat = 1 by
      norm_num]
    rfl
  · rw [show (Int.ceil ((1 : ℚ) / 4 * (([c, c, c, c, c, c, d].length - 1 : ℕ) : ℚ))).toNat = 2 by
      rw [show ((1 : ℚ) / 4 * (([c, c, c, c, c, c, d].length - 1 : ℕ) : ℚ)) = 3 / 2 by norm_num]
      rw [show Int.ceil ((3 : ℚ) / 2) = (2 : ℤ) by (rw [Int.ceil_eq_iff]; norm_num)]
      rfl]
    rfl

/-- Evaluation helper: the third quartile of a sorted 7-element list whose
first six entries agree. -/
theorem percentile_q3_sorted7 (c d : ℕ) :
    percentile [c, c, c, c, c, c, d] (3 / 4) = c := by
  apply percentile_const_of_getD
  · simp
  · simp
  · rw [show (Int.floor ((3 : ℚ) / 4 * (([c, c, c, c, c, c, d].length - 1 : ℕ) : ℚ))).toNat = 4 by
      rw [show ((3 : ℚ) / 4 * (([c, c, c, c, c, c, d].length - 1 : ℕ) : ℚ)) = 9 / 2 by norm_num]
      rw [show Int.floor ((9 : ℚ) / 2) = (4 : ℤ) by norm_num]
      rfl]
    rfl
  · rw [show (Int.ceil ((3 : ℚ) / 4 * (([c, c, c, c, c, c, d].length - 1 : ℕ) : ℚ))).toNat = 5 by
      rw [show ((3 : ℚ) / 4 * (([c, c, c, c, c, c, d].length - 1 : ℕ) : ℚ)) = 9 / 2 by norm_num]
      rw [show Int.ceil ((9 : ℚ) / 2) = (5 : ℤ) by (rw [Int.ceil_eq_iff]; norm_num)]
      rfl]
    rfl

/-- Evaluation helper: quartile data of a sorted 7-element list whose first
six entries agree. -/
theorem calculate_iqr_sorted7 (c d : ℕ) :
    calculate_iqr [c, c, c, c, c, c, d] = ((c : ℚ), (c : ℚ), (1 : ℚ)) := by
  unfold calculate_iqr
  rw [if_neg (by simp : ¬ ([c, c, c, c, c, c, d].isEmpty = true))]
  simp only [percentile_q1_sorted7, percentile_q3_sorted7, sub_self]
  norm_num

/-- Evaluation helper: a value is never an outlier of its own degenerate
quartiles. -/
theorem is_outlier_self (c : ℕ) : is_outlier c c c 1 = false := by
  have h1 : ¬ ((c : ℚ) < (c : ℚ) - TUKEY_K * 1) := by
    rw [TUKEY_K]; linarith
  have h2 : ¬ ((c : ℚ) + TUKEY_K * 1 < (c : ℚ)) := by
    rw [TUKEY_K]; linarith
  unfold is_outlier
  rw [decide_eq_false h1, decide_eq_false h2]
  rfl

/-- Evaluation helper: a value beyond the upper Tukey fence is an
outlier. -/
theorem is_outlier_gt (v c : ℕ) (h : (c : ℚ) + TUKEY_K * 1 < (v : ℚ)) :
    is_outlier v c c 1 = true := by
  unfold is_outlier
  simp only [Bool.or_eq_true, decide_eq_true_eq]
  right
  exact h

end GroupCropAnalyzer

/-- Seven valid bounding boxes: three identical inlier boxes followed by
four boxes each of which is extreme in exactly one edge, so the Tukey
fences leave 3 inliers out of 7 valid boxes (ratio 3/7, between 1/3 and
1/2). -/
def c1Boxes : List PageBoundingBox :=
  [PageBoundingBox.new 1 ⟨100, 100, 800, 1000⟩,
   PageBoundingBox.new 2 ⟨100, 100, 800, 1000⟩,
   PageBoundingBox.new 3 ⟨100, 100, 800, 1000⟩,
   PageBoundingBox.new 4 ⟨500, 100, 400, 1000⟩,
   PageBoundingBox.new 5 ⟨100, 500, 800, 600⟩,
   PageBoundingBox.new 6 ⟨100, 100, 1300, 1000⟩,
   PageBoundingBox.new 7 ⟨100, 100, 800, 1500⟩]

theorem c1Boxes_filter : c1Boxes.filter (·.is_valid) = c1Boxes := by decide

theorem c1Boxes_tukeyInliers :
    GroupCropAnalyzer.tukeyInliers c1Boxes = c1Boxes.take 3 := by
  unfold GroupCropAnalyzer.tukeyInliers
  have e1 : (c1Boxes.map (·.bounding_box.x)).insertionSort (· ≤ ·) =
      [100, 100, 100, 100, 100, 100, 500] := by decide
  have e2 : (c1Boxes.map (·.bounding_box.y)).insertionSort (· ≤ ·) =
      [100, 100, 100, 100, 100, 100, 500] := by decide
  have e3 : (c1Boxes.map (·.right)).insertionSort (· ≤ ·) =
      [900, 900, 900, 900, 900, 900, 1400] := by decide
  have e4 : (c1Boxes.map (·.bottom)).insertionSort (· ≤ ·) =
      [1100, 1100, 1100, 1100, 1100, 1100, 1600] := by decide
  simp only [e1, e2, e3, e4, GroupCropAnalyzer.calculate_iqr_sorted7]
  have o500 : GroupCropAnalyzer.is_outlier 500 100 100 1 = true :=
    GroupCropAnalyzer.is_outlier_gt 500 100 (by norm_num [GroupCropAnalyzer.TUKEY_K])
  have o1400 : GroupCropAnalyzer.is_outlier 1400 900 900 1 = true :=
    GroupCropAnalyzer.is_outlier_gt 1400 900 (by norm_num [GroupCropAnalyzer.TUKEY_K])
  have o1600 : GroupCropAnalyzer.is_outlier 1600 1100 1100 1 = true :=
    GroupCropAnalyzer.is_outlier_gt 1600 1100 (by norm_num [GroupCropAnalyzer.TUKEY_K])
  have s100 : GroupCropAnalyzer.is_outlier 100 (100 : ℚ) (100 : ℚ) 1 = false := by
    have h := GroupCropAnalyzer.is_outlier_self 100
    norm_num at h ⊢
    exact h
  have s900 : GroupCropAnalyzer.is_outlier 900 (900 : ℚ) (900 : ℚ) 1 = false := by
    have h := GroupCropAnalyzer.is_outlier_self 900
    norm_num at h ⊢
    exact h
  have s1100 : GroupCropAnalyzer.is_outlier 1100 (1100 : ℚ) (1100 : ℚ) 1 = false := by
    have h := GroupCropAnalyzer.is_outlier_self 1100
    norm_num at h ⊢
    exact h
  simp only [c1Boxes, PageBoundingBox.new, List.filter, PageBoundingBox.right,
    PageBoundingBox.bottom, wrap32]
  norm_num [o500, o1400, o1600, s100, s900, s1100]

/-- C1 counterexample: on `c1Boxes` the Tukey fences keep exactly 3 of the
7 valid boxes, so the claim's fallback condition (count below 3 or ratio
below 1/3) is false; yet `decide_group_crop_region` uses all 7 valid boxes
(inlier_count 7), not the 3 inliers, because the code's ratio threshold is
1/2. -/
theorem c1_counterexample :
    (GroupCropAnalyzer.tukeyInliers (c1Boxes.filter (·.is_valid))).length = 3 ∧
    (c1Boxes.filter (·.is_valid)).length = 7 ∧
    ¬ ((GroupCropAnalyzer.tukeyInliers (c1Boxes.filter (·.is_valid))).length < 3 ∨
       3 * (GroupCropAnalyzer.tukeyInliers (c1Boxes.filter (·.is_valid))).length <
         (c1Boxes.filter (·.is_valid)).length) ∧
    (GroupCropAnalyzer.decide_group_crop_region c1Boxes).inlier_count = 7 ∧
    GroupCropAnalyzer.decide_group_crop_region c1Boxes ≠
      GroupCropAnalyzer.regionOfBoxes
        (GroupCropAnalyzer.tukeyInliers (c1Boxes.filter (·.is_valid))) c1Boxes.length := by
  have hlen : (GroupCropAnalyzer.tukeyInliers (c1Boxes.filter (·.is_valid))).length = 3 := by
    rw [c1Boxes_filter, c1Boxes_tukeyInliers]; rfl
  have hcond : ¬ (GroupCropAnalyzer.MIN_INLIER_COUNT ≤ (c1Boxes.take 3).length ∧
      (c1Boxes.length : ℚ) * GroupCropAnalyzer.MIN_INLIER_RATIO ≤ ((c1Boxes.take 3).length : ℚ)) := by
    intro hc
    have h2 := hc.2
    rw [ GroupCropAnalyzer.MIN_INLIER_RATIO] at h2
    rw [show (c1Boxes.take 3).length = 3 from rfl, show c1Boxes.length = 7 from rfl] at h2
    norm_num at h2
  have hregion : GroupCropAnalyzer.decide_group_crop_region c1Boxes =
      GroupCropAnalyzer.regionOfBoxes c1Boxes 7 := by
    unfold GroupCropAnalyzer.decide_group_crop_region
    rw [if_neg (by decide : ¬ c1Boxes.isEmpty = true)]
    rw [c1Boxes_filter]
    rw [if_neg (by decide : ¬ c1Boxes.isEmpty = true)]
    rw [c1Boxes_tukeyInliers]
    simp only [if_neg hcond]
    rfl
  refine ⟨hlen, by rw [c1Boxes_filter]; rfl, ?_, ?_, ?_⟩
  · rw [hlen, c1Boxes_filter]
    decide
  · rw [hregion]; rfl
  · rw [hregion, c1Boxes_filter, c1Boxes_tukeyInliers]
    intro hcontra
    have h7 : (GroupCropAnalyzer.regionOfBoxes c1Boxes 7).inlier_count = 7 := rfl
    have h3 : (GroupCropAnalyzer.regionOfBoxes (c1Boxes.take 3) c1Boxes.length).inlier_count = 3 := rfl
    rw [hcontra] at h7
    rw [h3] at h7
    exact absurd h7 (by norm_num)

namespace GroupCropAnalyzer

theorem insertionSort_replicate (n c : ℕ) :
    (List.replicate n c).insertionSort (· ≤ ·) = List.replicate n c :=
  List.Sorted.insertionSort_eq ((List.pairwise_replicate).mpr (Or.inr (le_refl c)))

theorem getD_replicate (n i c : ℕ) (h : i < n) :
    (List.replicate n c).getD i 0 = c := by
  induction n generalizing i with
  | zero => omega
  | succ m ih =>
    cases i with
    | zero => rfl
    | succ j =>
      rw [List.replicate_succ]
      simpa using ih j (by omega)

theorem percentile_replicate (n c : ℕ) (p : ℚ) (hn : 1 ≤ n)
    (hp0 : 0 ≤ p) (hp1 : p ≤ 1) :
    percentile (List.replicate n c) p = c := by
  unfold percentile
  rw [if_neg (by simp [List.isEmpty_iff]; omega)]
  by_cases h1 : (List.replicate n c).length = 1
  · rw [if_pos h1]
    rw [List.length_replicate] at h1
    subst h1
    rfl
  · rw [if_neg h1]
    rw [List.length_replicate] at h1 ⊢
    have hn2 : 2 ≤ n := by omega
    have hidx0 : (0 : ℚ) ≤ p * ((n - 1 : ℕ) : ℚ) := by positivity
    have hidx1 : p * ((n - 1 : ℕ) : ℚ) ≤ ((n - 1 : ℕ) : ℚ) := by
      nlinarith [Nat.cast_nonneg (α := ℚ) (n - 1)]
    have hlo : (Int.floor (p * ((n - 1 : ℕ) : ℚ))).toNat < n := by
      have h2 : Int.floor (p * ((n - 1 : ℕ) : ℚ)) ≤ ((n - 1 : ℕ) : ℤ) := by
        calc Int.floor (p * ((n - 1 : ℕ) : ℚ)) ≤ Int.floor (((n - 1 : ℕ) : ℚ)) :=
              Int.floor_le_floor hidx1
          _ = ((n - 1 : ℕ) : ℤ) := Int.floor_natCast _
      omega
    have hhi : (Int.ceil (p * ((n - 1 : ℕ) : ℚ))).toNat < n := by
      have h2 : Int.ceil (p * ((n - 1 : ℕ) : ℚ)) ≤ ((n - 1 : ℕ) : ℤ) := by
        apply Int.ceil_le.mpr
        simpa using hidx1
      omega
    simp only [getD_replicate _ _ _ hlo, getD_replicate _ _ _ hhi]
    split
    · rfl
    · ring

theorem calculate_iqr_replicate (n c : ℕ) (hn : 1 ≤ n) :
    calculate_iqr (List.replicate n c) = ((c : ℚ), (c : ℚ), (1 : ℚ)) := by
  unfold calculate_iqr
  rw [if_neg (by simp [List.isEmpty_iff]; omega)]
  rw [percentile_replicate n c _ hn (by norm_num) (by norm_num),
    percentile_replicate n c _ hn (by norm_num) (by norm_num)]
  simp only [sub_self]
  norm_num

theorem median_u32_replicate (n c : ℕ) (hn : 1 ≤ n) (hc : 2 * c < 4294967296) :
    median_u32 (List.replicate n c) = c := by
  unfold median_u32
  rw [if_neg (by simp [List.isEmpty_iff]; omega)]
  simp only [insertionSort_replicate, List.length_replicate]
  by_cases hpar : n % 2 = 1
  · rw [if_pos hpar]
    exact getD_replicate _ _ _ (by omega)
  · rw [if_neg hpar]
    rw [getD_replicate _ _ _ (by omega), getD_replicate _ _ _ (by omega)]
    rw [wrap32_eq_self (by omega)]
    omega

theorem tukeyInliers_replicate (n : ℕ) (b : PageBoundingBox) (hn : 1 ≤ n) :
    tukeyInliers (List.replicate n b) = List.replicate n b := by
  unfold tukeyInliers
  simp only [List.map_replicate, insertionSort_replicate,
    calculate_iqr_replicate _ _ hn]
  rw [List.filter_replicate]
  rw [is_outlier_self, is_outlier_self, is_outlier_self, is_outlier_self]
  rfl

/-- C7: running group crop on a non-empty list of `n` identical bounding
boxes of positive width and height (and whose right and bottom edges fit
in an `i32`, so no `u32` arithmetic wraps) returns exactly that rectangle
with `inlier_count = total_count = n`. -/
theorem decide_group_crop_idempotent (n pn x y w h : ℕ) (io : Bool)
    (hn : 1 ≤ n) (hw : 0 < w) (hh : 0 < h)
    (hxw : x + w < 2147483648) (hyh : y + h < 2147483648) :
    decide_group_crop_region (List.replicate n ⟨pn, ⟨x, y, w, h⟩, io⟩) =
      ⟨x, y, w, h, n, n⟩ := by
  set b : PageBoundingBox := ⟨pn, ⟨x, y, w, h⟩, io⟩ with hb
  have hvalid : b.is_valid = true := by
    simp [PageBoundingBox.is_valid, hb, hw, hh]
  unfold decide_group_crop_region
  rw [if_neg (by simp [List.isEmpty_iff]; omega)]
  rw [show (List.replicate n b).filter (·.is_valid) = List.replicate n b by
    rw [List.filter_replicate, hvalid]; rfl]
  rw [if_neg (by simp [List.isEmpty_iff]; omega)]
  rw [tukeyInliers_replicate _ _ hn]
  have hregion : regionOfBoxes (List.replicate n b) (List.replicate n b).length =
      GroupCropRegion.mk x y w h n n := by
    unfold regionOfBoxes
    have hright : b.right = x + w := by
      simp [PageBoundingBox.right, hb, wrap32_eq_self (by omega : x + w < 4294967296)]
    have hbottom : b.bottom = y + h := by
      simp [PageBoundingBox.bottom, hb, wrap32_eq_self (by omega : y + h < 4294967296)]
    simp only [List.map_replicate, hright, hbottom, hb, List.length_replicate]
    rw [median_u32_replicate _ _ hn (by omega), median_u32_replicate _ _ hn (by omega),
      median_u32_replicate _ _ hn (by omega), median_u32_replicate _ _ hn (by omega)]
    rw [show x + w - x = w by omega, show y + h - y = h by omega]
  simp only [ite_self]
  exact hregion

/-- Witness for C7 at a concrete input. -/
theorem decide_group_crop_idempotent_witness :
    decide_group_crop_region
        (List.replicate 4 ⟨1, ⟨100, 100, 800, 1000⟩, true⟩) =
      ⟨100, 100, 800, 1000, 4, 4⟩ :=
  decide_group_crop_idempotent 4 1 100 100 800 1000 true
    (by norm_num) (by norm_num) (by norm_num) (by norm_num) (by norm_num)

end GroupCropAnalyzer

/-- Reduction of an integer into the `i32` range, the wrap of a Rust
`i32` operation in release mode. -/
def wrapI32 (z : ℤ) : ℤ := (z + 2147483648) % 4294967296 - 2147483648

theorem wrapI32_eq_self {z : ℤ} (h1 : -2147483648 ≤ z) (h2 : z < 2147483648) :
    wrapI32 z = z := by
  unfold wrapI32
  rw [Int.emod_eq_of_lt (by omega) (by omega)]
  omega

/-- Wrapping is stable under pre-wrapped left summands: `wrapI32` is a
congruence for `i32` addition. -/
theorem wrapI32_wrapI32_add (a b : ℤ) : wrapI32 (wrapI32 a + b) = wrapI32 (a + b) := by
  unfold wrapI32
  omega

theorem wrapI32_idem (a : ℤ) : wrapI32 (wrapI32 a) = wrapI32 a := by
  unfold wrapI32
  omega

-- ============================================================
-- page_number/offset.rs : page offset analysis
-- ============================================================

/-- `PageNumberRect` (`page_number/types.rs`): `u32` fields. -/
structure PageNumberRect where
  x : ℕ
  y : ℕ
  width : ℕ
  height : ℕ
deriving DecidableEq, Repr

/-- `DetectedPageNumber` (`page_number/types.rs`).  The `f32` confidence
is modelled over `ℚ`. -/
structure DetectedPageNumber where
  page_index : ℕ
  number : Option ℤ
  position : PageNumberRect
  confidence : ℚ
  raw_text : String
deriving DecidableEq, Repr

/-- `PageOffsetResult` (`page_number/offset.rs`). -/
structure PageOffsetResult where
  physical_page : ℕ
  logical_page : Option ℤ
  shift_x : ℤ
  shift_y : ℤ
  page_number_position : Option PageNumberRect
  is_odd : Bool
deriving DecidableEq, Repr

/-- `PageOffsetResult::no_offset`. -/
def PageOffsetResult.no_offset (physical_page : ℕ) : PageOffsetResult :=
  ⟨physical_page, none, 0, 0, none, physical_page % 2 == 1⟩

/-- `BookOffsetAnalysis` (`page_number/offset.rs`). -/
structure BookOffsetAnalysis where
  page_number_shift : ℤ
  page_offsets : List PageOffsetResult
  odd_avg_x : Option ℤ
  even_avg_x : Option ℤ
  odd_avg_y : Option ℤ
  even_avg_y : Option ℤ
  match_count : ℕ
  confidence : ℚ
deriving DecidableEq, Repr

/-- The `Default` value of `BookOffsetAnalysis`. -/
def BookOffsetAnalysis.defaultValue : BookOffsetAnalysis :=
  ⟨0, [], none, none, none, none, 0, 0⟩

namespace PageOffsetAnalyzer

/-- Constant `MIN_MATCH_COUNT = 5`. -/
def MIN_MATCH_COUNT : ℕ := 5

/-- Constant `MIN_MATCH_RATIO = 1.0 / 3.0` (`f64` constant modelled as the
exact rational). -/
def MIN_MATCH_RATIO : ℚ := 1 / 3

/-- Constant `MAX_SHIFT_TEST = 300`. -/
def MAX_SHIFT_TEST : ℤ := 300

/-- The match test used throughout `offset.rs`:
`expected_logical = physical_page as i32 - shift` (with `i32` wrap) and
the detection matches when `expected_logical >= 1` and the detected
number equals it. -/
def matchesShift (d : DetectedPageNumber) (shift : ℤ) : Bool :=
  let expected := wrapI32 (toI32 (d.page_index + 1) - shift)
  decide (1 ≤ expected) && decide (d.number = some expected)

/-- The inner loop of `find_best_page_number_shift`: accumulated
(score, count) over the detections for one candidate shift. -/
def scoreAt (detections : List DetectedPageNumber) (shift : ℤ) : ℚ × ℕ :=
  detections.foldl
    (fun acc d => if matchesShift d shift then (acc.1 + d.confidence, acc.2 + 1) else acc)
    (0, 0)

/-- The candidate shifts `-MAX_SHIFT_TEST..MAX_SHIFT_TEST` in iteration
order. -/
def shiftList : List ℤ := (List.range 600).map (fun (i : ℕ) => (i : ℤ) - MAX_SHIFT_TEST)

/-- The body of the `for shift in ...` loop of
`find_best_page_number_shift`: state `(best_shift, best_score,
best_count)`. -/
def stepShift (detections : List DetectedPageNumber) (best : ℤ × ℚ × ℕ) (shift : ℤ) :
    ℤ × ℚ × ℕ :=
  let sc := scoreAt detections shift
  if best.2.1 < sc.1 ∨ (sc.1 = best.2.1 ∧ |shift| < |best.1|) then (shift, sc.1, sc.2)
  else best

/-- The tail of `find_best_page_number_shift` after the loop: from the
final loop state `best = (best_shift, best_score, best_count)` and the
number `n` of detections, assemble `(best_shift, best_count,
confidence)` with `confidence = best_score / (n * 100)` when the
maximum possible score is positive. -/
def find_best_assemble (best : ℤ × ℚ × ℕ) (n : ℕ) : ℤ × ℕ × ℚ :=
  let max_possible_score : ℚ := (n : ℚ) * 100
  let confidence : ℚ := if 0 < max_possible_score then best.2.1 / max_possible_score else 0
  (best.1, best.2.2, confidence)

/-- `PageOffsetAnalyzer::find_best_page_number_shift`: returns
`(best_shift, best_count, confidence)`. -/
def find_best_page_number_shift (detections : List DetectedPageNumber) : ℤ × ℕ × ℚ :=
  find_best_assemble (shiftList.foldl (stepShift detections) (0, 0, 0)) detections.length

theorem find_best_eq (detections : List DetectedPageNumber) :
    find_best_page_number_shift detections =
      find_best_assemble (shiftList.foldl (stepShift detections) (0, 0, 0))
        detections.length := rfl

theorem find_best_assemble_fst (best : ℤ × ℚ × ℕ) (n : ℕ) :
    (find_best_assemble best n).1 = best.1 := rfl

/-- `PageOffsetAnalyzer::calculate_average_x` (on `(physical_page,
position, is_odd)` triples; `i64` arithmetic with a final `as i32`
cast). -/
def calculate_average_x (positions : List (ℕ × PageNumberRect × Bool)) : Option ℤ :=
  if positions.isEmpty then none
  else
    let sum : ℤ := (positions.map (fun p => (p.2.1.x : ℤ) + Int.tdiv (p.2.1.width : ℤ) 2)).sum
    some (wrapI32 (Int.tdiv sum (positions.length : ℤ)))

/-- `PageOffsetAnalyzer::calculate_average_y`. -/
def calculate_average_y (positions : List (ℕ × PageNumberRect × Bool)) : Option ℤ :=
  if positions.isEmpty then none
  else
    let sum : ℤ := (positions.map (fun p => (p.2.1.y : ℤ) + Int.tdiv (p.2.1.height : ℤ) 2)).sum
    some (wrapI32 (Int.tdiv sum (positions.length : ℤ)))

/-- `PageOffsetAnalyzer::align_group_y_values`. -/
def align_group_y_values (odd_avg_y even_avg_y : Option ℤ) : Option ℤ × Option ℤ :=
  match odd_avg_y, even_avg_y with
  | some odd_y, some even_y =>
    let diff := |wrapI32 (odd_y - even_y)|
    if diff < 350 then
      let avg := Int.tdiv (wrapI32 (odd_y + even_y)) 2
      (some avg, some avg)
    else (some odd_y, some even_y)
  | _, _ => (odd_avg_y, even_avg_y)

/-- `PageOffsetAnalyzer::calculate_per_page_offsets`. -/
def calculate_per_page_offsets (detections : List DetectedPageNumber) (shift : ℤ)
    (odd_avg_x even_avg_x odd_avg_y even_avg_y : Option ℤ) : List PageOffsetResult :=
  detections.map fun det =>
    let physical_page := det.page_index + 1
    let is_odd := physical_page % 2 == 1
    let expected_logical := wrapI32 (toI32 physical_page - shift)
    let matched := decide (1 ≤ expected_logical) && decide (det.number = some expected_logical)
    if matched then
      let avg_x := if is_odd then odd_avg_x else even_avg_x
      let avg_y := if is_odd then odd_avg_y else even_avg_y
      let center_x := wrapI32 (toI32 det.position.x + Int.tdiv (toI32 det.position.width) 2)
      let center_y := wrapI32 (toI32 det.position.y + Int.tdiv (toI32 det.position.height) 2)
      let shift_x := (avg_x.map (fun ax => wrapI32 (ax - center_x))).getD 0
      let shift_y := (avg_y.map (fun ay => wrapI32 (ay - center_y))).getD 0
      { physical_page := physical_page, logical_page := some expected_logical,
        shift_x := shift_x, shift_y := shift_y,
        page_number_position := some det.position, is_odd := is_odd }
    else PageOffsetResult.no_offset physical_page

/-- `PageOffsetAnalyzer::analyze_offsets`. -/
def analyze_offsets (detections : List DetectedPageNumber) (_image_height : ℕ) :
    BookOffsetAnalysis :=
  if detections.isEmpty then BookOffsetAnalysis.defaultValue
  else
    let best := find_best_page_number_shift detections
    if best.2.1 < MIN_MATCH_COUNT ∨
        ((best.2.1 : ℚ)) < (detections.length : ℚ) * MIN_MATCH_RATIO then
      { page_number_shift := 0,
        page_offsets := detections.map (fun d => PageOffsetResult.no_offset (d.page_index + 1)),
        odd_avg_x := none, even_avg_x := none, odd_avg_y := none, even_avg_y := none,
        match_count := 0, confidence := 0 }
    else
      let matched_pages : List (ℕ × PageNumberRect × Bool) := detections.filterMap fun det =>
        let physical_page := det.page_index + 1
        let expected_logical := wrapI32 (toI32 physical_page - best.1)
        if 1 ≤ expected_logical ∧ det.number = some expected_logical then
          some (physical_page, det.position, physical_page % 2 == 1)
        else none
      let odd_positions := matched_pages.filter (fun p => p.2.2)
      let even_positions := matched_pages.filter (fun p => !p.2.2)
      let odd_avg_x := calculate_average_x odd_positions
      let odd_avg_y := calculate_average_y odd_positions
      let even_avg_x := calculate_average_x even_positions
      let even_avg_y := calculate_average_y even_positions
      let aligned := align_group_y_values odd_avg_y even_avg_y
      let page_offsets := calculate_per_page_offsets detections best.1
        odd_avg_x even_avg_x aligned.1 aligned.2
      { page_number_shift := best.1, page_offsets := page_offsets,
        odd_avg_x := odd_avg_x, even_avg_x := even_avg_x,
        odd_avg_y := aligned.1, even_avg_y := aligned.2,
        match_count := best.2.1, confidence := best.2.2 }

theorem match_ratio_iff (m n : ℕ) :
    ((m : ℚ) < (n : ℚ) * MIN_MATCH_RATIO) ↔ 3 * m < n := by
  unfold MIN_MATCH_RATIO
  constructor
  · intro h
    have h2 : ((3 * m : ℕ) : ℚ) < (n : ℚ) := by push_cast; linarith
    exact_mod_cast h2
  · intro h
    have h2 : ((3 * m : ℕ) : ℚ) < (n : ℚ) := by exact_mod_cast h
    push_cast at h2
    linarith

/-- C2: when the best shift has fewer than 5 matches, or fewer than a
third of the detections match, `analyze_offsets` abandons: shift 0,
confidence 0, match count 0, and every per-page entry is a zero offset
with no logical page. -/
theorem analyze_offsets_abandon (detections : List DetectedPageNumber) (image_height : ℕ)
    (hne : detections ≠ [])
    (hcond : (find_best_page_number_shift detections).2.1 < 5 ∨
             3 * (find_best_page_number_shift detections).2.1 < detections.length) :
    (analyze_offsets detections image_height).page_number_shift = 0 ∧
    (analyze_offsets detections image_height).confidence = 0 ∧
    (analyze_offsets detections image_height).match_count = 0 ∧
    ∀ r ∈ (analyze_offsets detections image_height).page_offsets,
      r.shift_x = 0 ∧ r.shift_y = 0 ∧ r.logical_page = none := by
  have hcond2 : (find_best_page_number_shift detections).2.1 < MIN_MATCH_COUNT ∨
      (((find_best_page_number_shift detections).2.1 : ℚ)) <
        (detections.length : ℚ) * MIN_MATCH_RATIO := by
    rcases hcond with h | h
    · exact Or.inl h
    · exact Or.inr ((match_ratio_iff _ _).mpr h)
  have hae : analyze_offsets detections image_height =
      { page_number_shift := 0,
        page_offsets := detections.map (fun d => PageOffsetResult.no_offset (d.page_index + 1)),
        odd_avg_x := none, even_avg_x := none, odd_avg_y := none, even_avg_y := none,
        match_count := 0, confidence := 0 } := by
    unfold analyze_offsets
    rw [if_neg (by simp [List.isEmpty_iff, hne])]
    simp only [if_pos hcond2]
  rw [hae]
  refine ⟨rfl, rfl, rfl, ?_⟩
  intro r hr
  obtain ⟨d, _, rfl⟩ := List.mem_map.mp hr
  exact ⟨rfl, rfl, rfl⟩

theorem matchesShift_of_number_none (d : DetectedPageNumber) (hd : d.number = none)
    (shift : ℤ) : matchesShift d shift = false := by
  unfold matchesShift
  rw [hd]
  simp

theorem scoreAt_of_all_none (detections : List DetectedPageNumber)
    (hnone : ∀ d ∈ detections, d.number = none) (shift : ℤ) :
    scoreAt detections shift = (0, 0) := by
  unfold scoreAt
  induction detections with
  | nil => rfl
  | cons d rest ih =>
    rw [List.foldl_cons, matchesShift_of_number_none d (hnone d (by simp)) shift]
    simp only [Bool.false_eq_true, if_false]
    exact ih (fun x hx => hnone x (by simp [hx]))

theorem find_best_of_all_none (detections : List DetectedPageNumber)
    (hnone : ∀ d ∈ detections, d.number = none) :
    find_best_page_number_shift detections = (0, 0, 0) := by
  have hfold : shiftList.foldl (stepShift detections) (0, 0, 0) = (0, 0, 0) := by
    have hstep : ∀ s, stepShift detections (0, 0, 0) s = (0, 0, 0) := by
      intro s
      unfold stepShift
      rw [scoreAt_of_all_none detections hnone s]
      norm_num
    generalize shiftList = L
    induction L with
    | nil => rfl
    | cons t L ih => rw [List.foldl_cons, hstep t]; exact ih
  rw [find_best_eq, hfold]
  unfold find_best_assemble
  simp

/-- Witness for C2 at a concrete input: a single detection with no
recognised number. -/
theorem analyze_offsets_abandon_witness :
    (([⟨0, none, ⟨0, 0, 0, 0⟩, 9 / 10, "x"⟩] : List DetectedPageNumber) ≠ []) ∧
    ((find_best_page_number_shift [⟨0, none, ⟨0, 0, 0, 0⟩, 9 / 10, "x"⟩]).2.1 < 5 ∨
      3 * (find_best_page_number_shift [⟨0, none, ⟨0, 0, 0, 0⟩, 9 / 10, "x"⟩]).2.1 <
        ([⟨0, none, ⟨0, 0, 0, 0⟩, 9 / 10, "x"⟩] : List DetectedPageNumber).length) ∧
    (analyze_offsets [⟨0, none, ⟨0, 0, 0, 0⟩, 9 / 10, "x"⟩] 7000).page_number_shift = 0 ∧
    (analyze_offsets [⟨0, none, ⟨0, 0, 0, 0⟩, 9 / 10, "x"⟩] 7000).confidence = 0 ∧
    (analyze_offsets [⟨0, none, ⟨0, 0, 0, 0⟩, 9 / 10, "x"⟩] 7000).match_count = 0 ∧
    ∀ r ∈ (analyze_offsets [⟨0, none, ⟨0, 0, 0, 0⟩, 9 / 10, "x"⟩] 7000).page_offsets,
      r.shift_x = 0 ∧ r.shift_y = 0 ∧ r.logical_page = none := by
  have hnone : ∀ d ∈ ([⟨0, none, ⟨0, 0, 0, 0⟩, 9 / 10, "x"⟩] : List DetectedPageNumber),
      d.number = none := by
    intro d hd
    rw [List.mem_singleton.mp hd]
  have hfb := find_best_of_all_none _ hnone
  have hcond : (find_best_page_number_shift
        [(⟨0, none, ⟨0, 0, 0, 0⟩, 9 / 10, "x"⟩ : DetectedPageNumber)]).2.1 < 5 ∨
      3 * (find_best_page_number_shift
        [(⟨0, none, ⟨0, 0, 0, 0⟩, 9 / 10, "x"⟩ : DetectedPageNumber)]).2.1 <
        ([(⟨0, none, ⟨0, 0, 0, 0⟩, 9 / 10, "x"⟩ : DetectedPageNumber)] : List DetectedPageNumber).length := by
    rw [hfb]
    norm_num
  have h := analyze_offsets_abandon _ 7000 (by simp) hcond
  exact ⟨by simp, hcond, h.1, h.2.1, h.2.2.1, h.2.2.2⟩

/-- The claim's score of a candidate shift: the sum of confidences over
detections whose `physical_page - s` is at least 1 and equals the
detected number (pure integer arithmetic, no wrap). -/
def shiftScoreSpec (detections : List DetectedPageNumber) (s : ℤ) : ℚ :=
  (detections.map (fun d =>
    if 1 ≤ ((d.page_index : ℤ) + 1) - s ∧ d.number = some (((d.page_index : ℤ) + 1) - s)
    then d.confidence else 0)).sum

theorem matchesShift_iff_spec (d : DetectedPageNumber)
    (hbound : d.page_index + 301 < 2147483648) (s : ℤ) (hs1 : -300 ≤ s) (hs2 : s < 300) :
    matchesShift d s = true ↔
      (1 ≤ ((d.page_index : ℤ) + 1) - s ∧
        d.number = some (((d.page_index : ℤ) + 1) - s)) := by
  unfold matchesShift
  rw [toI32_eq_self (show d.page_index + 1 < 2147483648 by omega)]
  have hcast : ((d.page_index + 1 : ℕ) : ℤ) = (d.page_index : ℤ) + 1 := by push_cast; ring
  rw [hcast]
  rw [wrapI32_eq_self (by omega) (by
    have hb : (d.page_index : ℤ) + 301 < 2147483648 := by exact_mod_cast hbound
    omega)]
  simp only [Bool.and_eq_true, decide_eq_true_eq]

theorem scoreAt_fold (detections : List DetectedPageNumber) (s : ℤ) :
    ∀ acc : ℚ × ℕ,
      (detections.foldl
        (fun acc d => if matchesShift d s then (acc.1 + d.confidence, acc.2 + 1) else acc)
        acc).1 =
      acc.1 + (detections.map (fun d => if matchesShift d s then d.confidence else 0)).sum := by
  induction detections with
  | nil => intro acc; simp
  | cons d rest ih =>
    intro acc
    rw [List.foldl_cons, List.map_cons, List.sum_cons]
    by_cases h : matchesShift d s = true
    · rw [if_pos h, if_pos h, ih]
      dsimp only
      ring
    · rw [if_neg h, if_neg h, ih]
      ring

theorem scoreAt_fst_eq_spec (detections : List DetectedPageNumber)
    (hval : ∀ d ∈ detections, 0 ≤ d.confidence ∧ d.page_index + 301 < 2147483648)
    (s : ℤ) (hs1 : -300 ≤ s) (hs2 : s < 300) :
    (scoreAt detections s).1 = shiftScoreSpec detections s := by
  unfold scoreAt shiftScoreSpec
  rw [scoreAt_fold]
  have hmap : detections.map (fun d => if matchesShift d s then d.confidence else 0) =
      detections.map (fun d =>
        if 1 ≤ ((d.page_index : ℤ) + 1) - s ∧ d.number = some (((d.page_index : ℤ) + 1) - s)
        then d.confidence else 0) := by
    apply List.map_congr_left
    intro d hd
    by_cases h : matchesShift d s = true
    · rw [if_pos h, if_pos ((matchesShift_iff_spec d (hval d hd).2 s hs1 hs2).mp h)]
    · rw [if_neg h,
        if_neg (fun hc => h ((matchesShift_iff_spec d (hval d hd).2 s hs1 hs2).mpr hc))]
  rw [hmap]
  simp

theorem scoreAt_fst_nonneg (detections : List DetectedPageNumber)
    (hconf : ∀ d ∈ detections, 0 ≤ d.confidence) (s : ℤ) :
    0 ≤ (scoreAt detections s).1 := by
  unfold scoreAt
  rw [scoreAt_fold]
  have : (0 : ℚ) ≤ (detections.map (fun d => if matchesShift d s then d.confidence else 0)).sum := by
    apply List.sum_nonneg
    intro q hq
    obtain ⟨d, hd, rfl⟩ := List.mem_map.mp hq
    by_cases h : matchesShift d s = true
    · rw [if_pos h]; exact hconf d hd
    · rw [if_neg h]
  simpa using this

/-- Invariant maintained by the `for shift` loop of
`find_best_page_number_shift` over the processed shifts `P`. -/
def BestInv (detections : List DetectedPageNumber) (P : List ℤ) (b : ℤ × ℚ × ℕ) : Prop :=
  0 ≤ b.2.1 ∧
  (∀ t ∈ P, (scoreAt detections t).1 ≤ b.2.1) ∧
  (∀ t ∈ P, (scoreAt detections t).1 = b.2.1 → |b.1| ≤ |t|) ∧
  ((b.1 = 0 ∧ b.2.1 = 0) ∨ (b.1 ∈ P ∧ (scoreAt detections b.1).1 = b.2.1))

theorem bestInv_step (detections : List DetectedPageNumber) (P : List ℤ)
    (b : ℤ × ℚ × ℕ) (t : ℤ) (hinv : BestInv detections P b)
    (hnn : 0 ≤ (scoreAt detections t).1) :
    BestInv detections (P ++ [t]) (stepShift detections b t) := by
  obtain ⟨h0, hmax, htie, hmem⟩ := hinv
  unfold stepShift
  by_cases hcond : b.2.1 < (scoreAt detections t).1 ∨
      ((scoreAt detections t).1 = b.2.1 ∧ |t| < |b.1|)
  · rw [if_pos hcond]
    refine ⟨hnn, ?_, ?_, Or.inr ⟨by simp, rfl⟩⟩
    · intro u hu
      rcases List.mem_append.mp hu with hu | hu
      · rcases hcond with hc | hc
        · exact le_of_lt (lt_of_le_of_lt (hmax u hu) hc)
        · rw [hc.1]; exact hmax u hu
      · rw [List.mem_singleton.mp hu]
    · intro u hu hequ
      rcases List.mem_append.mp hu with hu | hu
      · rcases hcond with hc | hc
        · exact absurd hequ (by have := hmax u hu; dsimp only at *; intro he; rw [he] at this; exact absurd hc (not_lt.mpr this))
        · have h1 := htie u hu (by dsimp only at hequ ⊢; rw [hequ, hc.1])
          dsimp only
          exact le_trans (le_of_lt hc.2) h1
      · rw [List.mem_singleton.mp hu]
  · rw [if_neg hcond]
    push_neg at hcond
    obtain ⟨hle, htieneg⟩ := hcond
    refine ⟨h0, ?_, ?_, ?_⟩
    · intro u hu
      rcases List.mem_append.mp hu with hu | hu
      · exact hmax u hu
      · rw [List.mem_singleton.mp hu]
        exact hle
    · intro u hu hequ
      rcases List.mem_append.mp hu with hu | hu
      · exact htie u hu hequ
      · rw [List.mem_singleton.mp hu] at hequ ⊢
        exact htieneg hequ
    · rcases hmem with h | h
      · exact Or.inl h
      · exact Or.inr ⟨List.mem_append.mpr (Or.inl h.1), h.2⟩

theorem bestInv_fold (detections : List DetectedPageNumber) :
    ∀ (L P : List ℤ) (b : ℤ × ℚ × ℕ), BestInv detections P b →
      (∀ t ∈ L, 0 ≤ (scoreAt detections t).1) →
      BestInv detections (P ++ L) (L.foldl (stepShift detections) b) := by
  intro L
  induction L with
  | nil =>
    intro P b hinv _
    simpa using hinv
  | cons t L ih =>
    intro P b hinv hnn
    rw [List.foldl_cons]
    have h1 := bestInv_step detections P b t hinv (hnn t (by simp))
    have h2 := ih (P ++ [t]) _ h1 (fun u hu => hnn u (by simp [hu]))
    simpa using h2

theorem mem_shiftList_iff (t : ℤ) : t ∈ shiftList ↔ -300 ≤ t ∧ t < 300 := by
  unfold shiftList
  constructor
  · intro h
    obtain ⟨i, hi, he⟩ := List.mem_map.mp h
    rw [List.mem_range] at hi
    rw [← he, MAX_SHIFT_TEST]
    constructor <;> omega
  · intro h
    apply List.mem_map.mpr
    refine ⟨(t + 300).toNat, List.mem_range.mpr (by omega), ?_⟩
    rw [MAX_SHIFT_TEST]
    omega

/-- C3: the shift chosen by `find_best_page_number_shift` lies in
`[-300, 299]`, maximises the sum of confidences over matching detections
(detections with `physical_page - s ≥ 1` whose detected number equals
`physical_page - s`), and among the maximisers has minimal absolute
value.  Hypotheses: confidences are nonnegative and page indices small
enough that no `i32` arithmetic wraps. -/
theorem find_best_page_number_shift_optimal (detections : List DetectedPageNumber)
    (hval : ∀ d ∈ detections, 0 ≤ d.confidence ∧ d.page_index + 301 < 2147483648) :
    (-300 ≤ (find_best_page_number_shift detections).1 ∧
      (find_best_page_number_shift detections).1 < 300) ∧
    (∀ t : ℤ, -300 ≤ t → t < 300 →
      shiftScoreSpec detections t ≤
        shiftScoreSpec detections (find_best_page_number_shift detections).1) ∧
    (∀ t : ℤ, -300 ≤ t → t < 300 →
      shiftScoreSpec detections t =
        shiftScoreSpec detections (find_best_page_number_shift detections).1 →
      |(find_best_page_number_shift detections).1| ≤ |t|) := by
  have hconf : ∀ d ∈ detections, 0 ≤ d.confidence := fun d hd => (hval d hd).1
  have hinv := bestInv_fold detections shiftList [] (0, 0, 0)
    ⟨le_refl 0, by simp, by simp, Or.inl ⟨rfl, rfl⟩⟩
    (fun t _ => scoreAt_fst_nonneg detections hconf t)
  rw [List.nil_append] at hinv
  set b := shiftList.foldl (stepShift detections) (0, 0, 0) with hb
  have hfst : (find_best_page_number_shift detections).1 = b.1 := by
    rw [find_best_eq, find_best_assemble_fst, hb]
  obtain ⟨h0, hmax, htie, hmem⟩ := hinv
  have hsrange : -300 ≤ b.1 ∧ b.1 < 300 := by
    rcases hmem with h | h
    · rw [h.1]; norm_num
    · exact (mem_shiftList_iff b.1).mp h.1
  have hscore_b : (scoreAt detections b.1).1 = b.2.1 := by
    rcases hmem with h | h
    · have h1 := hmax 0 ((mem_shiftList_iff 0).mpr (by norm_num))
      have h2 := scoreAt_fst_nonneg detections hconf 0
      rw [h.1, h.2]
      exact le_antisymm (h.2 ▸ h1) h2
    · exact h.2
  refine ⟨by rw [hfst]; exact hsrange, ?_, ?_⟩
  · intro t ht1 ht2
    rw [hfst]
    rw [← scoreAt_fst_eq_spec detections hval t ht1 ht2,
      ← scoreAt_fst_eq_spec detections hval b.1 hsrange.1 hsrange.2, hscore_b]
    exact hmax t ((mem_shiftList_iff t).mpr ⟨ht1, ht2⟩)
  · intro t ht1 ht2 hteq
    rw [hfst] at hteq ⊢
    rw [← scoreAt_fst_eq_spec detections hval t ht1 ht2,
      ← scoreAt_fst_eq_spec detections hval b.1 hsrange.1 hsrange.2, hscore_b] at hteq
    exact htie t ((mem_shiftList_iff t).mpr ⟨ht1, ht2⟩) hteq

/-- Witness for C3 at a concrete input. -/
theorem find_best_page_number_shift_optimal_witness :
    (∀ d ∈ ([⟨0, none, ⟨0, 0, 0, 0⟩, 9 / 10, "x"⟩] : List DetectedPageNumber),
      0 ≤ d.confidence ∧ d.page_index + 301 < 2147483648) ∧
    (∀ t : ℤ, -300 ≤ t → t < 300 →
      shiftScoreSpec [⟨0, none, ⟨0, 0, 0, 0⟩, 9 / 10, "x"⟩] t ≤
        shiftScoreSpec [⟨0, none, ⟨0, 0, 0, 0⟩, 9 / 10, "x"⟩]
          (find_best_page_number_shift [⟨0, none, ⟨0, 0, 0, 0⟩, 9 / 10, "x"⟩]).1) := by
  have hval : ∀ d ∈ ([⟨0, none, ⟨0, 0, 0, 0⟩, 9 / 10, "x"⟩] : List DetectedPageNumber),
      0 ≤ d.confidence ∧ d.page_index + 301 < 2147483648 := by
    intro d hd
    rw [List.mem_singleton.mp hd]
    norm_num
  exact ⟨hval, (find_best_page_number_shift_optimal _ hval).2.1⟩

end PageOffsetAnalyzer

-- ============================================================
-- page_number/detect.rs : Roman numeral parsing
-- ============================================================

namespace TesseractPageDetector

/-- The table of numerals from `parse_roman_numeral` (line 246 of
`page_number/detect.rs`), in source order. -/
def romanMap : List (List Char × ℕ) :=
  [(['m'], 1000), (['c', 'm'], 900), (['d'], 500), (['c', 'd'], 400),
   (['c'], 100), (['x', 'c'], 90), (['l'], 50), (['x', 'l'], 40),
   (['x'], 10), (['i', 'x'], 9), (['v'], 5), (['i', 'v'], 4), (['i'], 1)]

/-- Rust `str::to_lowercase`, restricted to the simple per-character
mapping (the inputs that matter are ASCII, where the two agree). -/
def toLowercase (s : List Char) : List Char := s.map Char.toLower

/-- Rust `str::trim`: strip whitespace from both ends. -/
def trimAscii (s : List Char) : List Char :=
  ((s.dropWhile Char.isWhitespace).reverse.dropWhile Char.isWhitespace).reverse

/-- Fuel-driven body of the inner `while remaining.starts_with(numeral)`
loop of `parse_roman_numeral`: threads the `i32` accumulator `result`
(each `result += value` wraps, release semantics) and the remaining
input.  For a non-empty numeral a fuel of `s.length` is always
sufficient (each iteration strictly shortens the input). -/
def consumeManyGo (numeral : List Char) (value : ℕ) : ℕ → ℤ → List Char → ℤ × List Char
  | 0, acc, s => (acc, s)
  | fuel + 1, acc, s =>
    if numeral.isPrefixOf s then
      consumeManyGo numeral value fuel (wrapI32 (acc + (value : ℤ))) (s.drop numeral.length)
    else (acc, s)

/-- The inner `while` loop of `parse_roman_numeral`, from accumulator
`acc`. -/
def consumeMany (numeral : List Char) (value : ℕ) (acc : ℤ) (s : List Char) : ℤ × List Char :=
  consumeManyGo numeral value s.length acc s

/-- The outer `for (numeral, value) in &roman_map` loop of
`parse_roman_numeral`: one pass over the table in order, each entry
consuming as many copies as match at the current position, threading
the `i32` accumulator `result`. -/
def parseFrom : List (List Char × ℕ) → ℤ → List Char → ℤ × List Char
  | [], acc, s => (acc, s)
  | (numeral, value) :: rest, acc, s =>
    let p := consumeMany numeral value acc s
    parseFrom rest p.1 p.2

/-- `TesseractPageDetector::parse_roman_numeral`, parametric in the
normalisation `text.to_lowercase().trim()` (Unicode functions of the
Rust standard library); the `result` accumulator is an `i32` that wraps
in release mode. -/
def parse_roman_numeral (normalize : List Char → List Char) (text : List Char) : Option ℤ :=
  let t := normalize text
  let p := parseFrom romanMap 0 t
  if p.2.isEmpty ∧ 0 < p.1 then some p.1 else none

/-- Modelled from the spec: the claim's greedy matcher.  Fuel-driven
left-to-right scan: at each position take the first element of the
sequence that matches a prefix of the remaining input; `some total` iff
the whole input is consumed. -/
def greedyGo : ℕ → List Char → Option ℕ
  | _, [] => some 0
  | 0, _ :: _ => none
  | fuel + 1, c :: s =>
    match romanMap.find? (fun e => e.1.isPrefixOf (c :: s)) with
    | none => none
    | some e => (greedyGo fuel ((c :: s).drop e.1.length)).map (e.2 + ·)

/-- The claim's greedy run over a whole string (fuel `s.length`
suffices: every matched numeral is non-empty). -/
def greedyRun (s : List Char) : Option ℕ := greedyGo s.length s

/-- Modelled from the spec: the claim's greedy left-to-right matcher as a
whole — normalise (the same lowercase-and-trim as the code), scan
greedily, and return the mathematical (unbounded) sum iff the entire
input was consumed and the sum is positive. -/
def greedyRomanSpec (normalize : List Char → List Char) (text : List Char) : Option ℕ :=
  let t := normalize text
  match greedyRun t with
  | some total => if 0 < total then some total else none
  | none => none

/-- The ASCII instantiation of the normalisation, used at the concrete
(pure-ASCII) inputs of the witness and counterexample, where it agrees
with Rust's Unicode `to_lowercase`/`trim`. -/
def asciiNormalize (s : List Char) : List Char := trimAscii (toLowercase s)

/-- A non-matching numeral leaves the accumulator and input untouched,
whatever the fuel. -/
theorem consumeManyGo_not_pref (numeral : List Char) (value fuel : ℕ) (acc : ℤ)
    (s : List Char) (h : ¬ numeral.isPrefixOf s = true) :
    consumeManyGo numeral value fuel acc s = (acc, s) := by
  cases fuel <;> simp [consumeManyGo, h]

/-- For a non-empty numeral, any fuel of at least `s.length` computes the
same result as the loop itself. -/
theorem consumeManyGo_congr (numeral : List Char) (hne : numeral ≠ []) (value : ℕ) :
    ∀ fuel s (acc : ℤ), s.length ≤ fuel →
      consumeManyGo numeral value fuel acc s = consumeMany numeral value acc s := by
  intro fuel
  induction fuel using Nat.strong_induction_on with
  | _ fuel ih =>
    intro s acc hs
    cases fuel with
    | zero =>
      have hnil : s = [] := List.length_eq_zero.mp (by omega)
      subst hnil
      rfl
    | succ f =>
      by_cases hp : numeral.isPrefixOf s = true
      · have hlen : 1 ≤ numeral.length := List.length_pos.mpr hne
        have hsp : numeral.length ≤ s.length :=
          ( List.isPrefixOf_iff_prefix.mp hp).length_le
        have hspos : 1 ≤ s.length := le_trans hlen hsp
        obtain ⟨m, hm⟩ : ∃ m, s.length = m + 1 := ⟨s.length - 1, by omega⟩
        have hdropf : (s.drop numeral.length).length ≤ f := by
          simp only [List.length_drop]; omega
        have hdropm : (s.drop numeral.length).length ≤ m := by
          simp only [List.length_drop]; omega
        unfold consumeMany
        rw [hm]
        simp only [consumeManyGo, hp, if_pos]
        rw [ih f (Nat.lt_succ_self f) _ _ hdropf, ih m (by omega) _ _ hdropm]
      · rw [consumeManyGo_not_pref _ _ _ _ _ hp]
        unfold consumeMany
        rw [consumeManyGo_not_pref _ _ _ _ _ hp]

theorem consumeMany_neg (numeral : List Char) (value : ℕ) (acc : ℤ) (s : List Char)
    (h : ¬ numeral.isPrefixOf s = true) :
    consumeMany numeral value acc s = (acc, s) :=
  consumeManyGo_not_pref _ _ _ _ _ h

theorem consumeMany_pos (numeral : List Char) (hne : numeral ≠ []) (value : ℕ)
    (acc : ℤ) (s : List Char) (h : numeral.isPrefixOf s = true) :
    consumeMany numeral value acc s =
      consumeMany numeral value (wrapI32 (acc + (value : ℤ))) (s.drop numeral.length) := by
  have hlen : 1 ≤ numeral.length := List.length_pos.mpr hne
  have hsp : numeral.length ≤ s.length :=
    ( List.isPrefixOf_iff_prefix.mp h).length_le
  obtain ⟨m, hm⟩ : ∃ m, s.length = m + 1 := ⟨s.length - 1, by omega⟩
  conv =>
    lhs
    rw [consumeMany, hm]
  simp only [consumeManyGo, h, if_pos]
  rw [consumeManyGo_congr numeral hne value m _ _ (by simp only [List.length_drop]; omega)]

theorem parseFrom_cons_not_pref (e : List Char × ℕ) (rest : List (List Char × ℕ))
    (acc : ℤ) (s : List Char) (h : ¬ e.1.isPrefixOf s = true) :
    parseFrom (e :: rest) acc s = parseFrom rest acc s := by
  obtain ⟨numeral, value⟩ := e
  simp only [parseFrom, consumeMany_neg _ _ _ _ h]

theorem parseFrom_cons_pref (e : List Char × ℕ) (rest : List (List Char × ℕ))
    (acc : ℤ) (s : List Char) (hne : e.1 ≠ []) (h : e.1.isPrefixOf s = true) :
    parseFrom (e :: rest) acc s =
      parseFrom (e :: rest) (wrapI32 (acc + (e.2 : ℤ))) (s.drop e.1.length) := by
  obtain ⟨numeral, value⟩ := e
  simp only [parseFrom]
  rw [consumeMany_pos numeral hne value acc s h]

theorem parseFrom_nil_input : ∀ (l : List (List Char × ℕ)) (acc : ℤ),
    parseFrom l acc [] = (acc, []) := by
  intro l
  induction l with
  | nil => intro acc; rfl
  | cons e rest ih =>
    intro acc
    obtain ⟨numeral, value⟩ := e
    show parseFrom rest (consumeMany numeral value acc []).1
      (consumeMany numeral value acc []).2 = (acc, [])
    rw [show consumeMany numeral value acc [] = (acc, []) from rfl]
    exact ih acc

/-- The `j`-th entry of the numeral table. -/
def entry (j : ℕ) : List Char × ℕ := romanMap.getD j ([], 0)

theorem romanMap_length : romanMap.length = 13 := rfl

theorem entry_nonempty : ∀ j, j < 13 → (entry j).1 ≠ [] := by decide

theorem entry_len_le : ∀ j, j < 13 → (entry j).1.length ≤ 2 := by decide

/-- No table entry is a prefix of a strictly later one. -/
theorem entry_no_pref : ∀ m, m < 13 → ∀ i, i < 13 → m < i →
    ¬ (entry m).1.isPrefixOf (entry i).1 = true := by decide

/-- No table entry is a prefix of the concatenation of two entries both
strictly later than it (with the second no earlier than the first). -/
theorem entry_no_cross_pref : ∀ m, m < 13 → ∀ i, i < 13 → ∀ i2, i2 < 13 →
    ¬ (m < i ∧ i ≤ i2 ∧ (entry m).1.isPrefixOf ((entry i).1 ++ (entry i2).1) = true) := by
  decide

theorem drop_romanMap (j : ℕ) (h : j < 13) :
    romanMap.drop j = entry j :: romanMap.drop (j + 1) := by
  rw [entry, List.getD_eq_getElem romanMap ([], 0) (by rw [romanMap_length]; exact h)]
  exact (List.getElem_cons_drop romanMap j (by rw [romanMap_length]; exact h)).symm

theorem drop_romanMap_13 : romanMap.drop 13 = [] := rfl

/-- The single pass either fails on `s` before position 13, or there is a
first matching entry `i ≥ j`, and the parse from `j` equals the parse
from `i` (skipped entries touch neither accumulator nor input). -/
theorem first_match_aux : ∀ (k j : ℕ), j + k = 13 → ∀ (s : List Char), s ≠ [] →
    ∀ acc : ℤ, (parseFrom (romanMap.drop j) acc s).2 = [] →
    ∃ i, j ≤ i ∧ i < 13 ∧ (entry i).1.isPrefixOf s = true ∧
      (∀ m, j ≤ m → m < i → ¬ (entry m).1.isPrefixOf s = true) ∧
      parseFrom (romanMap.drop j) acc s = parseFrom (romanMap.drop i) acc s := by
  intro k
  induction k with
  | zero =>
    intro j hj s hs acc hc
    have hj13 : j = 13 := by omega
    subst hj13
    rw [drop_romanMap_13] at hc
    simp only [parseFrom] at hc
    exact absurd hc hs
  | succ k ih =>
    intro j hj s hs acc hc
    have hjlt : j < 13 := by omega
    by_cases hp : (entry j).1.isPrefixOf s = true
    · exact ⟨j, le_refl _, hjlt, hp, fun m h1 h2 => absurd h1 (by omega), rfl⟩
    · rw [drop_romanMap j hjlt, parseFrom_cons_not_pref _ _ _ _ hp] at hc
      obtain ⟨i, hi1, hi2, hi3, hi4, hi5⟩ := ih (j + 1) (by omega) s hs acc hc
      refine ⟨i, by omega, hi2, hi3, ?_, ?_⟩
      · intro m h1 h2
        rcases Nat.eq_or_lt_of_le h1 with h1' | h1'
        · rw [← h1']
          exact hp
        · exact hi4 m (by omega) h2
      · rw [drop_romanMap j hjlt, parseFrom_cons_not_pref _ _ _ _ hp, hi5]

/-- Unfolding of the parse at a matching entry: the accumulator takes one
wrapped `+= value` step. -/
theorem consume_step (i : ℕ) (hi : i < 13) (acc : ℤ) (s : List Char)
    (hp : (entry i).1.isPrefixOf s = true) :
    parseFrom (romanMap.drop i) acc s =
      parseFrom (romanMap.drop i) (wrapI32 (acc + ((entry i).2 : ℤ)))
        (s.drop (entry i).1.length) := by
  conv_lhs => rw [drop_romanMap i hi]
  conv_rhs => rw [drop_romanMap i hi]
  exact parseFrom_cons_pref _ _ _ _ (entry_nonempty i hi) hp

/-- If the single pass starting at position `j` consumes all of `s`, no
entry before position `j` can match a prefix of `s`. -/
theorem not_prefix_of_consumed (j : ℕ) (hj : j ≤ 13) (acc : ℤ) (s : List Char)
    (hc : (parseFrom (romanMap.drop j) acc s).2 = []) :
    ∀ m, m < j → ¬ (entry m).1.isPrefixOf s = true := by
  intro m hm hpre
  have hm13 : m < 13 := by omega
  by_cases hs : s = []
  · subst hs
    exact entry_nonempty m hm13 (List.prefix_nil.mp ( List.isPrefixOf_iff_prefix.mp hpre))
  · obtain ⟨i, hi1, hi2, hi3, hi4, hi5⟩ := first_match_aux (13 - j) j (by omega) s hs acc hc
    have humem : (entry m).1 <+: s := List.isPrefixOf_iff_prefix.mp hpre
    have hwmem : (entry i).1 <+: s := List.isPrefixOf_iff_prefix.mp hi3
    by_cases hlen : (entry m).1.length ≤ (entry i).1.length
    · have hmi : (entry m).1 <+: (entry i).1 :=
        List.prefix_of_prefix_length_le humem hwmem hlen
      exact entry_no_pref m hm13 i hi2 (by omega)
        ( List.isPrefixOf_iff_prefix.mpr hmi)
    · obtain ⟨s2, hs2⟩ := hwmem
      have hs2eq : s2 = s.drop (entry i).1.length := by rw [← hs2, List.drop_left]
      have hc2 : (parseFrom (romanMap.drop i)
          (wrapI32 (acc + ((entry i).2 : ℤ))) s2).2 = [] := by
        rw [hi5, consume_step i hi2 acc s hi3] at hc
        rw [hs2eq]
        exact hc
      have hs2ne : s2 ≠ [] := by
        intro h0
        rw [h0, List.append_nil] at hs2
        have hle := humem.length_le
        rw [← hs2] at hle
        omega
      obtain ⟨i2, hii1, hii2, hii3, _, _⟩ :=
        first_match_aux (13 - i) i (by omega) s2 hs2ne
          (wrapI32 (acc + ((entry i).2 : ℤ))) hc2
      have hw2 : (entry i2).1 <+: s2 := List.isPrefixOf_iff_prefix.mp hii3
      have happ : (entry i).1 ++ (entry i2).1 <+: s := by
        rw [← hs2]
        exact (List.prefix_append_right_inj _).mpr hw2
      have hlen2 : (entry m).1.length ≤ ((entry i).1 ++ (entry i2).1).length := by
        rw [List.length_append]
        have h1 := entry_len_le m hm13
        have h2 := List.length_pos.mpr (entry_nonempty i hi2)
        have h3 := List.length_pos.mpr (entry_nonempty i2 hii2)
        omega
      have hcross : (entry m).1 <+: (entry i).1 ++ (entry i2).1 :=
        List.prefix_of_prefix_length_le humem happ hlen2
      exact entry_no_cross_pref m hm13 i hi2 i2 hii2
        ⟨by omega, hii1, List.isPrefixOf_iff_prefix.mpr hcross⟩

/-- Generic characterisation of `List.find?` via the first index whose
element satisfies the predicate. -/
theorem find?_of_getD {α : Type} (l : List α) (p : α → Bool) (d : α) :
    ∀ i, i < l.length → p (l.getD i d) = true →
      (∀ m, m < i → ¬ p (l.getD m d) = true) → l.find? p = some (l.getD i d) := by
  induction l with
  | nil =>
    intro i hi
    exact absurd hi (by simp)
  | cons a t ih =>
    intro i hi hp hmin
    cases i with
    | zero =>
      rw [show (a :: t).getD 0 d = a from rfl] at hp ⊢
      exact List.find?_cons_of_pos _ hp
    | succ n =>
      have hna : ¬ p a = true := by
        have h0 := hmin 0 (by omega)
        rwa [show (a :: t).getD 0 d = a from rfl] at h0
      rw [List.find?_cons_of_neg _ (by simpa using hna)]
      rw [show (a :: t).getD (n + 1) d = t.getD n d from rfl]
      exact ih n (by simpa using hi)
        (by rwa [show (a :: t).getD (n + 1) d = t.getD n d from rfl] at hp)
        (fun m hm => by
          have := hmin (m + 1) (by omega)
          rwa [show (a :: t).getD (m + 1) d = t.getD m d from rfl] at this)

theorem romanMap_entries_nonempty : ∀ e ∈ romanMap, e.1 ≠ [] := by decide

/-- A fuel of at least `s.length` computes `greedyRun`. -/
theorem greedyGo_congr : ∀ (n : ℕ) (s : List Char), s.length = n →
    ∀ fuel, n ≤ fuel → greedyGo fuel s = greedyGo n s := by
  intro n
  induction n using Nat.strong_induction_on with
  | _ n ih =>
    intro s hs fuel hf
    cases s with
    | nil =>
      have hn0 : n = 0 := by simpa using hs.symm
      subst hn0
      cases fuel <;> rfl
    | cons c t =>
      have hn : n = t.length + 1 := by simpa using hs.symm
      subst hn
      obtain ⟨f, rfl⟩ : ∃ f, fuel = f + 1 := ⟨fuel - 1, by omega⟩
      cases hfind : romanMap.find? (fun e => e.1.isPrefixOf (c :: t)) with
      | none => simp only [greedyGo, hfind]
      | some e =>
        simp only [greedyGo, hfind]
        have hene : e.1 ≠ [] :=
          romanMap_entries_nonempty e (List.mem_of_find?_eq_some hfind)
        have hplen : 1 ≤ e.1.length := List.length_pos.mpr hene
        have hd : ((c :: t).drop e.1.length).length < t.length + 1 := by
          simp only [List.length_drop, List.length_cons]
          omega
        rw [ih ((c :: t).drop e.1.length).length hd _ rfl f
          (by simp only [List.length_drop, List.length_cons] at *; omega)]
        rw [ih ((c :: t).drop e.1.length).length hd _ rfl t.length
          (by simp only [List.length_drop, List.length_cons]; omega)]

/-- One greedy step. -/
theorem greedyRun_step (s : List Char) (hs : s ≠ []) (e : List Char × ℕ)
    (hfind : romanMap.find? (fun x => x.1.isPrefixOf s) = some e) :
    greedyRun s = (greedyRun (s.drop e.1.length)).map (e.2 + ·) := by
  obtain ⟨c, t, rfl⟩ := List.exists_cons_of_ne_nil hs
  show greedyGo (t.length + 1) (c :: t) = _
  simp only [greedyGo, hfind]
  congr 1
  have hene : e.1 ≠ [] :=
    romanMap_entries_nonempty e (List.mem_of_find?_eq_some hfind)
  have hplen : 1 ≤ e.1.length := List.length_pos.mpr hene
  exact greedyGo_congr ((c :: t).drop e.1.length).length _ rfl t.length
    (by simp only [List.length_drop, List.length_cons]; omega)

/-- Whenever the single in-order pass starting at table position `j`
(with an in-range accumulator `acc`) consumes all of `s`, the greedy
matcher consumes all of `s` too, and the pass's final accumulator is the
`i32`-wrapped sum of `acc` and the greedy total. -/
theorem greedyRun_of_parseFrom : ∀ (n : ℕ) (s : List Char), s.length = n →
    ∀ j, j ≤ 13 → ∀ acc : ℤ, wrapI32 acc = acc →
    (parseFrom (romanMap.drop j) acc s).2 = [] →
    ∃ g : ℕ, greedyRun s = some g ∧
      (parseFrom (romanMap.drop j) acc s).1 = wrapI32 (acc + (g : ℤ)) := by
  intro n
  induction n using Nat.strong_induction_on with
  | _ n ih =>
    intro s hs j hj acc hacc hc
    by_cases hsnil : s = []
    · subst hsnil
      rw [parseFrom_nil_input]
      exact ⟨0, rfl, by rw [Int.natCast_zero, add_zero]; exact hacc.symm⟩
    · obtain ⟨i, hi1, hi2, hi3, hi4, hi5⟩ :=
        first_match_aux (13 - j) j (by omega) s hsnil acc hc
      have hmin : ∀ m, m < i → ¬ (entry m).1.isPrefixOf s = true := by
        intro m hm
        by_cases hmj : m < j
        · exact not_prefix_of_consumed j hj acc s hc m hmj
        · exact hi4 m (by omega) hm
      have hfind : romanMap.find? (fun x => x.1.isPrefixOf s) = some (entry i) :=
        find?_of_getD romanMap _ ([], 0) i (by rw [romanMap_length]; exact hi2) hi3 hmin
      have hstep := greedyRun_step s hsnil (entry i) hfind
      rw [hi5, consume_step i hi2 acc s hi3] at hc ⊢
      have hdlt : (s.drop (entry i).1.length).length < n := by
        have h1 : 1 ≤ (entry i).1.length := List.length_pos.mpr (entry_nonempty i hi2)
        have h2 : 1 ≤ s.length := List.length_pos.mpr hsnil
        simp only [List.length_drop]
        omega
      obtain ⟨g2, hg1, hg2⟩ := ih (s.drop (entry i).1.length).length hdlt _ rfl i (by omega)
        (wrapI32 (acc + ((entry i).2 : ℤ))) (wrapI32_idem _) hc
      refine ⟨(entry i).2 + g2, ?_, ?_⟩
      · rw [hstep, hg1]
        rfl
      · rw [hg2, wrapI32_wrapI32_add]
        push_cast
        ring_nf

/-- C4 (amended): `parse_roman_numeral` is a single in-order pass over
the numeral sequence, consuming for each element in turn as many copies
as match at the current position and accumulating into a wrapping `i32`;
whenever it returns `some v`, the claim's greedy left-to-right matcher
also consumes the whole input, and `v` is the `i32`-wrapped value of the
greedy total.  The converse fails (see the counterexample at "ic"),
because the code never revisits earlier table entries. -/
theorem parse_roman_numeral_sound (normalize : List Char → List Char)
    (text : List Char) (v : ℤ)
    (h : parse_roman_numeral normalize text = some v) :
    ∃ g : ℕ, greedyRomanSpec normalize text = some g ∧ v = wrapI32 (g : ℤ) := by
  unfold parse_roman_numeral at h
  dsimp only at h
  split at h
  case isFalse => exact absurd h (by simp)
  case isTrue hcond =>
    obtain ⟨hempty, hpos⟩ := hcond
    have hv : (parseFrom romanMap 0 (normalize text)).1 = v :=
      Option.some_injective _ h
    have hnil : (parseFrom romanMap 0 (normalize text)).2 = [] :=
      List.isEmpty_iff.mp hempty
    have hdrop0 : romanMap.drop 0 = romanMap := List.drop_zero romanMap
    have hw0 : wrapI32 0 = 0 := by decide
    obtain ⟨g, hg1, hg2⟩ := greedyRun_of_parseFrom (normalize text).length
      (normalize text) rfl 0 (by omega) 0 hw0 (by rw [hdrop0]; exact hnil)
    rw [hdrop0] at hg2
    have hvg : v = wrapI32 (g : ℤ) := by
      rw [← hv, hg2, zero_add]
    have hgpos : 0 < g := by
      rcases Nat.eq_zero_or_pos g with h0 | h0
      · rw [h0] at hvg
        rw [show wrapI32 ((0 : ℕ) : ℤ) = 0 from by decide] at hvg
        rw [hv, hvg] at hpos
        exact absurd hpos (by norm_num)
      · exact h0
    refine ⟨g, ?_, hvg⟩
    unfold greedyRomanSpec
    dsimp only
    rw [hg1]
    simp only [hgpos, if_pos]

/-- Witness for C4's amended theorem at a concrete input. -/
theorem parse_roman_numeral_sound_witness :
    parse_roman_numeral asciiNormalize ['x', 'i', 'v'] = some 14 ∧
    ∃ g : ℕ, greedyRomanSpec asciiNormalize ['x', 'i', 'v'] = some g ∧
      (14 : ℤ) = wrapI32 (g : ℤ) :=
  ⟨by decide, parse_roman_numeral_sound asciiNormalize ['x', 'i', 'v'] 14 (by decide)⟩

/-- C4 counterexample: on "ic" the code returns `None` (after consuming
"i" it never revisits the earlier entry "c"), while the claim's greedy
left-to-right matcher consumes "i" then "c" and returns `Some 101` —
whose `i32` value `101` the code does not return either. -/
theorem parse_roman_numeral_counterexample :
    parse_roman_numeral asciiNormalize ['i', 'c'] = none ∧
    greedyRomanSpec asciiNormalize ['i', 'c'] = some 101 ∧
    parse_roman_numeral asciiNormalize ['i', 'c'] ≠ some (wrapI32 (101 : ℤ)) := by
  refine ⟨by decide, by decide, by decide⟩

end TesseractPageDetector


-- ============================================================
-- cleanup/marker_removal.rs : highlighter marker removal (C5)
-- ============================================================

/-- An RGB pixel `(r, g, b)`, each channel a `u8` value. -/
abbrev Rgb : Type := ℕ × ℕ × ℕ

/-- An `image::RgbImage`: dimensions plus a pixel map (only the values
at `x < width`, `y < height` are ever read by the embedded code). -/
structure RgbImg where
  width : ℕ
  height : ℕ
  pix : ℕ → ℕ → Rgb

/-- Truncation toward zero, as in Rust float-to-int casts and float
`%`. -/
def ratTrunc (q : ℚ) : ℤ := if q < 0 then ⌈q⌉ else ⌊q⌋

/-- Rust `%` on floats: remainder with the sign of the dividend. -/
def ratFmod (a b : ℚ) : ℚ := a - b * ratTrunc (a / b)

/-- Rust `as u8` on a nonnegative-or-saturating float: truncate toward
zero and clamp to `[0, 255]`. -/
def f64_as_u8 (q : ℚ) : ℕ := if q < 0 then 0 else min (⌊q⌋.toNat) 255

/-- `HighlighterColor` from `cleanup/marker_removal.rs`. -/
inductive HighlighterColor where
  | Yellow
  | Pink
  | Green
  | Blue
  | Orange
  | Custom (hue_min hue_max sat_min sat_max val_min val_max : ℕ)
  deriving DecidableEq

/-- `HsvRange`: an HSV colour box (`f32` fields modelled as exact
rationals). -/
structure HsvRange where
  hue_min : ℚ
  hue_max : ℚ
  sat_min : ℚ
  sat_max : ℚ
  val_min : ℚ
  val_max : ℚ

namespace MarkerRemover

/-- `HighlighterColor::hsv_range` with the constants from the top of
`marker_removal.rs` (e.g. `YELLOW_HUE_MIN = 50.0`,
`YELLOW_SAT_MIN = 0.30`). -/
def hsv_range : HighlighterColor → HsvRange
  | .Yellow => ⟨50, 70, 3/10, 1, 7/10, 1⟩
  | .Pink => ⟨300, 345, 1/4, 4/5, 7/10, 1⟩
  | .Green => ⟨80, 140, 3/10, 9/10, 1/2, 1⟩
  | .Blue => ⟨190, 240, 3/10, 9/10, 1/2, 1⟩
  | .Orange => ⟨15, 45, 2/5, 1, 7/10, 1⟩
  | .Custom hmin hmax smin smax vmin vmax =>
      ⟨hmin, hmax, (smin : ℚ)/100, (smax : ℚ)/100, (vmin : ℚ)/100, (vmax : ℚ)/100⟩

/-- `HsvRange::matches`, including the wrap-around hue branch. -/
def rangeMatches (r : HsvRange) (h s v : ℚ) : Bool :=
  (if r.hue_max < r.hue_min then decide (r.hue_min ≤ h) || decide (h ≤ r.hue_max)
   else decide (r.hue_min ≤ h) && decide (h ≤ r.hue_max)) &&
  decide (r.sat_min ≤ s) && decide (s ≤ r.sat_max) &&
  decide (r.val_min ≤ v) && decide (v ≤ r.val_max)

/-- `MarkerRemover::rgb_to_hsv` (`f32` arithmetic modelled exactly over
`ℚ`; Rust float `%` is `ratFmod`). -/
def rgb_to_hsv (r g b : ℕ) : ℚ × ℚ × ℚ :=
  let rf : ℚ := (r : ℚ) / 255
  let gf : ℚ := (g : ℚ) / 255
  let bf : ℚ := (b : ℚ) / 255
  let mx := max (max rf gf) bf
  let mn := min (min rf gf) bf
  let v := mx
  let d := mx - mn
  let s : ℚ := if mx = 0 then 0 else d / mx
  let h : ℚ :=
    if d = 0 then 0
    else if mx = rf then 60 * ratFmod ((gf - bf) / d) 6
    else if mx = gf then 60 * ((bf - rf) / d + 2)
    else 60 * ((rf - gf) / d + 4)
  (if h < 0 then h + 360 else h, s, v)

/-- `MarkerRemover::luminance`: `(0.299 r + 0.587 g + 0.114 b).round()
as u8`; `round` on a nonnegative value is `⌊· + 1/2⌋`. -/
def luminance (r g b : ℕ) : ℕ :=
  f64_as_u8 ((299 * (r : ℚ) + 587 * (g : ℚ) + 114 * (b : ℚ)) / 1000 + 1/2)

/-- `MarkerRemover::compute_edge_map` read at one pixel: Sobel on the
luminance of the original image over the interior `1..width-1 ×
1..height-1`; pixels outside stay at the `GrayImage::new` default `0`.
`((gx*gx+gy*gy) as f64).sqrt() as u8` is `min (Nat.sqrt _) 255`: for the
magnitudes reachable here (`≤ 2·1020²`, far below `2^53`) the correctly
rounded `f64` square root truncates to the integer square root. -/
def compute_edge_map (image : RgbImg) (x y : ℕ) : ℕ :=
  if 1 ≤ x ∧ x + 1 < image.width ∧ 1 ≤ y ∧ y + 1 < image.height then
    let gray : ℕ → ℕ → ℤ := fun a b =>
      (luminance (image.pix a b).1 (image.pix a b).2.1 (image.pix a b).2.2 : ℤ)
    let gx := gray (x+1) (y-1) + 2 * gray (x+1) y + gray (x+1) (y+1)
      - gray (x-1) (y-1) - 2 * gray (x-1) y - gray (x-1) (y+1)
    let gy := gray (x-1) (y+1) + 2 * gray x (y+1) + gray (x+1) (y+1)
      - gray (x-1) (y-1) - 2 * gray x (y-1) - gray (x+1) (y-1)
    min (Nat.sqrt (gx * gx + gy * gy).toNat) 255
  else 0

/-- `MarkerRemover::fade_to_white`. -/
def fade_to_white (p : Rgb) (strength : ℚ) : Rgb :=
  (f64_as_u8 (min ((p.1 : ℚ) + (255 - (p.1 : ℚ)) * strength) 255),
   f64_as_u8 (min ((p.2.1 : ℚ) + (255 - (p.2.1 : ℚ)) * strength) 255),
   f64_as_u8 (min ((p.2.2 : ℚ) + (255 - (p.2.2 : ℚ)) * strength) 255))

/-- `MarkerRemovalOptions`. -/
structure MarkerRemovalOptions where
  colors : List HighlighterColor
  strength : ℚ
  preserve_text_edges : Bool
  edge_threshold : ℕ

/-- `MarkerDetectionResult`. -/
structure MarkerDetectionResult where
  detected_pixels : List (HighlighterColor × ℕ)
  total_marker_pixels : ℕ
  total_pixels : ℕ
  image_size : ℕ × ℕ

/-- The `for (color, count) in &mut color_counts` loop with `break`:
increment the first matching colour, report whether any matched. -/
def countMatch (h s v : ℚ) : List (HighlighterColor × ℕ) → List (HighlighterColor × ℕ) × Bool
  | [] => ([], false)
  | (c, n) :: rest =>
      if rangeMatches (hsv_range c) h s v then ((c, n + 1) :: rest, true)
      else
        let r := countMatch h s v rest
        ((c, n) :: r.1, r.2)

/-- `image.put_pixel(a, b, p)` on a pixel map. -/
def updatePixel (f : ℕ → ℕ → Rgb) (a b : ℕ) (p : Rgb) : ℕ → ℕ → Rgb :=
  fun x y => if x = a ∧ y = b then p else f x y

/-- The mutable state of the `remove_in_place` pixel loop. -/
structure RemoveState where
  img : ℕ → ℕ → Rgb
  counts : List (HighlighterColor × ℕ)
  total : ℕ

/-- One iteration of the `remove_in_place` pixel loop at coordinate
`c`: skip when `edges.get_pixel(x, y) > edge_threshold` (strictly),
else match the pixel's HSV against the colour list and fade matches
toward white. -/
def stepPixel (opts : MarkerRemovalOptions) (edgeAt : ℕ → ℕ → ℕ) (st : RemoveState)
    (c : ℕ × ℕ) : RemoveState :=
  if opts.preserve_text_edges && decide (opts.edge_threshold < edgeAt c.1 c.2) then st
  else
    let p := st.img c.1 c.2
    let hsv := rgb_to_hsv p.1 p.2.1 p.2.2
    let m := countMatch hsv.1 hsv.2.1 hsv.2.2 st.counts
    ⟨if m.2 then updatePixel st.img c.1 c.2 (fade_to_white p opts.strength) else st.img,
     m.1, if m.2 then st.total + 1 else st.total⟩

/-- The `for y in 0..height { for x in 0..width { ... } }` iteration
order. -/
def coords (width height : ℕ) : List (ℕ × ℕ) :=
  (List.range height).flatMap (fun y => (List.range width).map (fun (x : ℕ) => (x, y)))

/-- Packaging of the final loop state into the returned image and
`MarkerDetectionResult`. -/
def assembleRemoval (image : RgbImg) (fin : RemoveState) : RgbImg × MarkerDetectionResult :=
  (⟨image.width, image.height, fin.img⟩,
   ⟨fin.counts, fin.total, image.width * image.height, (image.width, image.height)⟩)

/-- `MarkerRemover::remove_in_place` (always returns `Ok`; the edge map
is computed once from the original image). -/
def remove_in_place (image : RgbImg) (opts : MarkerRemovalOptions) :
    RgbImg × MarkerDetectionResult :=
  assembleRemoval image
    ((coords image.width image.height).foldl (stepPixel opts (compute_edge_map image))
      ⟨image.pix, opts.colors.map (fun c => (c, 0)), 0⟩)

theorem hsv_black : rgb_to_hsv 0 0 0 = (0, 0, 0) := by
  norm_num [rgb_to_hsv]

theorem hsv_white : rgb_to_hsv 255 255 255 = (0, 0, 1) := by
  norm_num [rgb_to_hsv]

theorem hsv_yellowish : rgb_to_hsv 255 255 128 = (60, 127/255, 1) := by
  norm_num [rgb_to_hsv, ratFmod, ratTrunc]

theorem ym_black : rangeMatches (hsv_range .Yellow) 0 0 0 = false := by
  norm_num [rangeMatches, hsv_range]

theorem ym_white : rangeMatches (hsv_range .Yellow) 0 0 1 = false := by
  norm_num [rangeMatches, hsv_range]

theorem ym_yellow : rangeMatches (hsv_range .Yellow) 60 (127/255) 1 = true := by
  norm_num [rangeMatches, hsv_range]

/-- The 3×3 image used for the C5 counterexample and witness: black
left column, white elsewhere, except a pale-yellow centre pixel.  The
Sobel magnitude at the centre saturates to `255`. -/
def c5Img : RgbImg :=
  ⟨3, 3, fun x y =>
    if x = 0 then (0, 0, 0)
    else if x = 1 ∧ y = 1 then (255, 255, 128)
    else (255, 255, 255)⟩

/-- Options detecting yellow only, full strength, edge threshold
`255`. -/
def c5Opts : MarkerRemovalOptions := ⟨[.Yellow], 1, true, 255⟩

theorem lum_black : luminance 0 0 0 = 0 := by norm_num [luminance, f64_as_u8, Int.toNat_ofNat]

theorem lum_white : luminance 255 255 255 = 255 := by
  norm_num [luminance, f64_as_u8]
  decide

theorem lum_yellowish : luminance 255 255 128 = 241 := by
  norm_num [luminance, f64_as_u8]
  decide

theorem edge_c5 : compute_edge_map c5Img 1 1 = 255 := by
  have hsq : Nat.sqrt 1040400 = 1020 := by
    have h : (1040400 : ℕ) = 1020 * 1020 := by norm_num
    rw [h]; exact Nat.sqrt_eq 1020
  have htn : (1040400 : ℤ).toNat = 1040400 := by decide
  norm_num [compute_edge_map, c5Img, lum_black, lum_white, lum_yellowish, htn, hsq]

theorem countMatch_fst_of_false (h s v : ℚ) :
    ∀ l : List (HighlighterColor × ℕ), (countMatch h s v l).2 = false →
      (countMatch h s v l).1 = l := by
  intro l
  induction l with
  | nil => intro _; rfl
  | cons a rest ih =>
    obtain ⟨c, n⟩ := a
    intro hf
    unfold countMatch at hf ⊢
    by_cases hm : rangeMatches (hsv_range c) h s v = true
    · rw [if_pos hm] at hf; exact absurd hf (by simp)
    · rw [if_neg hm] at hf ⊢
      dsimp only at hf ⊢
      rw [ih hf]

theorem stepPixel_eq_self (opts : MarkerRemovalOptions) (edgeAt : ℕ → ℕ → ℕ)
    (st : RemoveState) (c : ℕ × ℕ)
    (h : (countMatch (rgb_to_hsv (st.img c.1 c.2).1 (st.img c.1 c.2).2.1
        (st.img c.1 c.2).2.2).1
      (rgb_to_hsv (st.img c.1 c.2).1 (st.img c.1 c.2).2.1 (st.img c.1 c.2).2.2).2.1
      (rgb_to_hsv (st.img c.1 c.2).1 (st.img c.1 c.2).2.1 (st.img c.1 c.2).2.2).2.2
      st.counts).2 = false) :
    stepPixel opts edgeAt st c = st := by
  unfold stepPixel
  by_cases hskip : (opts.preserve_text_edges && decide (opts.edge_threshold < edgeAt c.1 c.2)) = true
  · rw [if_pos hskip]
  · rw [if_neg hskip]
    dsimp only
    rw [h, countMatch_fst_of_false _ _ _ _ h]
    simp only [Bool.false_eq_true, if_false]

theorem countMatch_yellow_false (h s v : ℚ) (n : ℕ)
    (hm : rangeMatches (hsv_range .Yellow) h s v = false) :
    countMatch h s v [(.Yellow, n)] = ([(.Yellow, n)], false) := by
  unfold countMatch
  rw [hm]
  simp [countMatch]

theorem countMatch_yellow_true (h s v : ℚ) (n : ℕ)
    (hm : rangeMatches (hsv_range .Yellow) h s v = true) :
    countMatch h s v [(.Yellow, n)] = ([(.Yellow, n + 1)], true) := by
  unfold countMatch
  rw [hm]
  simp

theorem fade_yellowish : fade_to_white (255, 255, 128) 1 = (255, 255, 255) := by
  norm_num [fade_to_white, f64_as_u8]
  decide

theorem c5_scenter : stepPixel c5Opts (compute_edge_map c5Img)
    ⟨c5Img.pix, [(.Yellow, 0)], 0⟩ (1, 1) =
    ⟨updatePixel c5Img.pix 1 1 (255, 255, 255), [(.Yellow, 1)], 1⟩ := by
  unfold stepPixel
  rw [if_neg (by simp [c5Opts, edge_c5])]
  dsimp only
  have hp : c5Img.pix 1 1 = (255, 255, 128) := by simp [c5Img]
  rw [hp, hsv_yellowish]
  dsimp only
  rw [countMatch_yellow_true 60 (127/255) 1 0 ym_yellow]
  dsimp only
  simp [c5Opts, fade_yellowish]

theorem c5_fold :
    (coords 3 3).foldl (stepPixel c5Opts (compute_edge_map c5Img))
        ⟨c5Img.pix, [(.Yellow, 0)], 0⟩ =
      ⟨updatePixel c5Img.pix 1 1 (255, 255, 255), [(.Yellow, 1)], 1⟩ := by
  have hc : coords 3 3 = [(0,0),(1,0),(2,0),(0,1),(1,1),(2,1),(0,2),(1,2),(2,2)] := by decide
  have hb : ∀ (st : RemoveState) (c : ℕ × ℕ) (n : ℕ), st.img c.1 c.2 = (0, 0, 0) →
      st.counts = [(.Yellow, n)] →
      stepPixel c5Opts (compute_edge_map c5Img) st c = st := by
    intro st c n h1 h2
    exact stepPixel_eq_self _ _ _ _
      (by rw [h1, h2]; simp [hsv_black, ym_black, countMatch_yellow_false])
  have hw : ∀ (st : RemoveState) (c : ℕ × ℕ) (n : ℕ), st.img c.1 c.2 = (255, 255, 255) →
      st.counts = [(.Yellow, n)] →
      stepPixel c5Opts (compute_edge_map c5Img) st c = st := by
    intro st c n h1 h2
    exact stepPixel_eq_self _ _ _ _
      (by rw [h1, h2]; simp [hsv_white, ym_white, countMatch_yellow_false])
  rw [hc]
  simp only [List.foldl_cons, List.foldl_nil]
  rw [hb ⟨c5Img.pix, [(.Yellow, 0)], 0⟩ (0, 0) 0 (by simp [c5Img]) rfl]
  rw [hw ⟨c5Img.pix, [(.Yellow, 0)], 0⟩ (1, 0) 0 (by simp [c5Img]) rfl]
  rw [hw ⟨c5Img.pix, [(.Yellow, 0)], 0⟩ (2, 0) 0 (by simp [c5Img]) rfl]
  rw [hb ⟨c5Img.pix, [(.Yellow, 0)], 0⟩ (0, 1) 0 (by simp [c5Img]) rfl]
  rw [c5_scenter]
  rw [hw ⟨updatePixel c5Img.pix 1 1 (255, 255, 255), [(.Yellow, 1)], 1⟩ (2, 1) 1
    (by simp [c5Img, updatePixel]) rfl]
  rw [hb ⟨updatePixel c5Img.pix 1 1 (255, 255, 255), [(.Yellow, 1)], 1⟩ (0, 2) 1
    (by simp [c5Img, updatePixel]) rfl]
  rw [hw ⟨updatePixel c5Img.pix 1 1 (255, 255, 255), [(.Yellow, 1)], 1⟩ (1, 2) 1
    (by simp [c5Img, updatePixel]) rfl]
  rw [hw ⟨updatePixel c5Img.pix 1 1 (255, 255, 255), [(.Yellow, 1)], 1⟩ (2, 2) 1
    (by simp [c5Img, updatePixel]) rfl]

/-- Options identical to `c5Opts` but with edge threshold `254`, so the
centre pixel of `c5Img` (magnitude `255`) is strictly above it. -/
def c5OptsSkip : MarkerRemovalOptions := ⟨[.Yellow], 1, true, 254⟩

/-- Counterexample to C5 as stated: with `preserve_text_edges` on and a
pixel whose Sobel magnitude `255` is greater than *or equal to*
`edge_threshold = 255`, the pixel is *not* skipped: the guard in
`remove_in_place` is the strict `edges.get_pixel(x, y).0[0] >
options.edge_threshold`.  The centre pixel of `c5Img` is modified
(faded to white) and counted as a marker pixel. -/
theorem remove_in_place_edge_counterexample :
    c5Opts.preserve_text_edges = true ∧
    c5Opts.edge_threshold ≤ compute_edge_map c5Img 1 1 ∧
    (remove_in_place c5Img c5Opts).1.pix 1 1 ≠ c5Img.pix 1 1 ∧
    (remove_in_place c5Img c5Opts).2.total_marker_pixels = 1 := by
  have hr : remove_in_place c5Img c5Opts =
      assembleRemoval c5Img ⟨updatePixel c5Img.pix 1 1 (255, 255, 255), [(.Yellow, 1)], 1⟩ := by
    unfold remove_in_place
    have h1 : c5Img.width = 3 := rfl
    have h2 : c5Img.height = 3 := rfl
    have h3 : c5Opts.colors.map (fun c => (c, (0 : ℕ))) = [(.Yellow, 0)] := rfl
    rw [h1, h2, h3, c5_fold]
  refine ⟨rfl, ?_, ?_, ?_⟩
  · rw [edge_c5]
    decide
  · rw [hr]
    simp [assembleRemoval, updatePixel, c5Img]
  · rw [hr]
    rfl

/-- C5 (amended: the guard is strict).  In `remove_in_place` with
`preserve_text_edges` enabled, a pixel whose Sobel edge-map magnitude is
*strictly greater than* `edge_threshold` is skipped: the output image
keeps the input value there, and the loop body at that coordinate is
the identity on the whole loop state (image, per-colour counts, and
total), so the pixel is neither counted against any colour nor
modified. -/
theorem remove_in_place_skips_edges (image : RgbImg) (opts : MarkerRemovalOptions) (x y : ℕ)
    (hp : opts.preserve_text_edges = true)
    (hmag : opts.edge_threshold < compute_edge_map image x y) :
    (remove_in_place image opts).1.pix x y = image.pix x y ∧
    ∀ st : RemoveState, stepPixel opts (compute_edge_map image) st (x, y) = st := by
  have hskip : (opts.preserve_text_edges &&
      decide (opts.edge_threshold < compute_edge_map image x y)) = true := by
    rw [hp]
    simp [hmag]
  have hstep : ∀ st : RemoveState, stepPixel opts (compute_edge_map image) st (x, y) = st := by
    intro st
    unfold stepPixel
    rw [if_pos hskip]
  have himg : ∀ (st : RemoveState) (c : ℕ × ℕ),
      (stepPixel opts (compute_edge_map image) st c).img x y = st.img x y := by
    intro st c
    unfold stepPixel
    by_cases h : (opts.preserve_text_edges &&
        decide (opts.edge_threshold < compute_edge_map image c.1 c.2)) = true
    · rw [if_pos h]
    · rw [if_neg h]
      dsimp only
      cases hmb : (countMatch
          (rgb_to_hsv (st.img c.1 c.2).1 (st.img c.1 c.2).2.1 (st.img c.1 c.2).2.2).1
          (rgb_to_hsv (st.img c.1 c.2).1 (st.img c.1 c.2).2.1 (st.img c.1 c.2).2.2).2.1
          (rgb_to_hsv (st.img c.1 c.2).1 (st.img c.1 c.2).2.1 (st.img c.1 c.2).2.2).2.2
          st.counts).2 with
      | false => simp
      | true =>
        rw [if_pos rfl]
        have hne : ¬(x = c.1 ∧ y = c.2) := by
          rintro ⟨he1, he2⟩
          rw [he1, he2] at hskip
          exact h hskip
        unfold updatePixel
        rw [if_neg hne]
  have hfold : ∀ (L : List (ℕ × ℕ)) (st : RemoveState),
      (L.foldl (stepPixel opts (compute_edge_map image)) st).img x y = st.img x y := by
    intro L
    induction L with
    | nil => intro st; rfl
    | cons a L ih => intro st; rw [List.foldl_cons, ih, himg]
  refine ⟨?_, hstep⟩
  unfold remove_in_place
  exact hfold _ _

/-- Witness for C5 at a concrete input: threshold `254`, centre
magnitude `255`. -/
theorem remove_in_place_skips_edges_witness :
    (c5OptsSkip.preserve_text_edges = true ∧
      c5OptsSkip.edge_threshold < compute_edge_map c5Img 1 1) ∧
    ((remove_in_place c5Img c5OptsSkip).1.pix 1 1 = c5Img.pix 1 1 ∧
      ∀ st : RemoveState, stepPixel c5OptsSkip (compute_edge_map c5Img) st (1, 1) = st) := by
  have h1 : c5OptsSkip.preserve_text_edges = true := rfl
  have h2 : c5OptsSkip.edge_threshold < compute_edge_map c5Img 1 1 := by
    rw [edge_c5]
    decide
  exact ⟨⟨h1, h2⟩, remove_in_place_skips_edges c5Img c5OptsSkip 1 1 h1 h2⟩

end MarkerRemover


-- ============================================================
-- cleanup/deblur.rs : blur detection and unsharp mask (C6)
-- ============================================================

/-- An `image::GrayImage`: dimensions plus a `u8` pixel map. -/
structure GrayImg where
  width : ℕ
  height : ℕ
  pix : ℕ → ℕ → ℕ

/-- Rust `clamp(lo, hi)` on floats. -/
def ratClamp (q lo hi : ℚ) : ℚ := min (max q lo) hi

/-- `DeblurAlgorithm` from `cleanup/deblur.rs`. -/
inductive DeblurAlgorithm where
  | UnsharpMask
  | NafNet
  | DeblurGanV2
  deriving DecidableEq

/-- `AiDeblurModel` (the `name` field is called `modelName` here). -/
structure AiDeblurModel where
  modelName : String
  model_path : Option String

/-- `DeblurOptions` (`f32`/`f64` fields modelled as exact rationals). -/
structure DeblurOptions where
  algorithm : DeblurAlgorithm
  auto_detect : Bool
  blur_threshold : ℚ
  unsharp_sigma : ℚ
  unsharp_amount : ℚ
  ai_model : Option AiDeblurModel

/-- `BlurMetrics`. -/
structure BlurMetrics where
  laplacian_variance : ℚ
  is_blurry : Bool
  blur_severity : ℚ

/-- `DeblurResult`. -/
structure DeblurResult where
  before_metrics : BlurMetrics
  after_metrics : Option BlurMetrics
  processed : Bool
  algorithm : DeblurAlgorithm
  image_size : ℕ × ℕ

namespace BlurDetector

/-- The `for y in 1..height-1 { for x in 1..width-1 }` iteration order
of `laplacian_variance`. -/
def interiorCoords (width height : ℕ) : List (ℕ × ℕ) :=
  (List.range (height - 2)).flatMap
    (fun j => (List.range (width - 2)).map (fun (i : ℕ) => (i + 1, j + 1)))

/-- The Laplacian kernel response `top + bottom + left + right -
4*center` at an interior pixel. -/
def lapAt (gray : GrayImg) (x y : ℕ) : ℚ :=
  (gray.pix x (y - 1) : ℚ) + (gray.pix x (y + 1) : ℚ) + (gray.pix (x - 1) y : ℚ)
    + (gray.pix (x + 1) y : ℚ) - 4 * (gray.pix x y : ℚ)

/-- `BlurDetector::laplacian_variance`: `0` when either dimension is
below `3`, else `|sum_sq/count - (sum/count)^2|` over the interior. -/
def laplacian_variance (gray : GrayImg) : ℚ :=
  if gray.width < 3 ∨ gray.height < 3 then 0
  else
    let s := (interiorCoords gray.width gray.height).foldl
      (fun (acc : ℚ × ℚ × ℕ) (c : ℕ × ℕ) =>
        let lap := lapAt gray c.1 c.2
        (acc.1 + lap, acc.2.1 + lap * lap, acc.2.2 + 1))
      (0, 0, 0)
    if s.2.2 = 0 then 0
    else |s.2.1 / (s.2.2 : ℚ) - (s.1 / (s.2.2 : ℚ)) * (s.1 / (s.2.2 : ℚ))|

/-- `BlurDetector::detect_from_image`. -/
def detect_from_image (gray : GrayImg) (threshold : ℚ) : BlurMetrics :=
  let variance := laplacian_variance gray
  ⟨variance, decide (variance < threshold),
   ratClamp (if threshold ≤ variance then 0 else 1 - variance / threshold) 0 1⟩

end BlurDetector

namespace Deblurrer

/-- `Deblurrer::gaussian_kernel`, parametric in the `f32` exponential
`E` (a transcendental function with no exact rational form). -/
def gaussian_kernel (E : ℚ → ℚ) (size : ℕ) (sigma : ℚ) : List ℚ :=
  let half : ℤ := (size / 2 : ℕ)
  let raw := (List.range size).map
    (fun (i : ℕ) => E (-(((i : ℤ) - half : ℤ) : ℚ) * (((i : ℤ) - half : ℤ) : ℚ)
      / (2 * sigma * sigma)))
  let sum := raw.foldl (· + ·) 0
  raw.map (fun k => k / sum)

/-- `Deblurrer::convolve_separable` with index clamping at the
borders; data is row-major (`i = y*width + x`). -/
def convolve_separable (data : List ℚ) (width height : ℕ) (kernel : List ℚ) : List ℚ :=
  let w := width
  let h := height
  let k_half := kernel.length / 2
  let temp := (List.range (w * h)).map (fun (i : ℕ) =>
    let y := i / w
    let x := i % w
    (kernel.enum.foldl (fun (sum : ℚ) kv =>
      let sx := (((x : ℤ) + (kv.1 : ℤ) - (k_half : ℤ)).toNat).min (w - 1)
      sum + data.getD (y * w + sx) 0 * kv.2) 0))
  (List.range (w * h)).map (fun (i : ℕ) =>
    let y := i / w
    let x := i % w
    (kernel.enum.foldl (fun (sum : ℚ) kv =>
      let sy := (((y : ℤ) + (kv.1 : ℤ) - (k_half : ℤ)).toNat).min (h - 1)
      sum + temp.getD (sy * w + x) 0 * kv.2) 0))

/-- One channel pass of `apply_unsharp_mask`: extract the channel,
blur it, write back `original + amount * (original - blurred)` clamped
to `[0, 255]`. -/
def applyChannel (img : RgbImg) (getC : Rgb → ℕ) (setC : Rgb → ℕ → Rgb)
    (kernel : List ℚ) (amount : ℚ) : RgbImg :=
  let original : List ℚ := (List.range (img.height * img.width)).map
    (fun (i : ℕ) => (getC (img.pix (i % img.width) (i / img.width)) : ℚ))
  let blurred := convolve_separable original img.width img.height kernel
  ⟨img.width, img.height, fun x y =>
    if x < img.width ∧ y < img.height then
      let i := y * img.width + x
      let orig := original.getD i 0
      setC (img.pix x y) (f64_as_u8 (ratClamp (orig + amount * (orig - blurred.getD i 0)) 0 255))
    else img.pix x y⟩

/-- `Deblurrer::apply_unsharp_mask`: odd kernel size
`((sigma * 6).ceil() as usize) | 1`, then the three channel passes in
order. -/
def apply_unsharp_mask (E : ℚ → ℚ) (image : RgbImg) (sigma amount : ℚ) : RgbImg :=
  let kernel_size := (Int.ceil (sigma * 6)).toNat ||| 1
  let kernel := gaussian_kernel E kernel_size sigma
  let i1 := applyChannel image (fun p => p.1) (fun p v => (v, p.2.1, p.2.2)) kernel amount
  let i2 := applyChannel i1 (fun p => p.2.1) (fun p v => (p.1, v, p.2.2)) kernel amount
  applyChannel i2 (fun p => p.2.2) (fun p v => (p.1, p.2.1, v)) kernel amount

/-- `Deblurrer::process_in_place`, parametric in the grayscale
conversion `toLuma` (the `image` crate's `to_luma8`) and the `f32`
exponential `E`.  Returns the (possibly updated) image together with
the `DeblurResult`. -/
def process_in_place (image : RgbImg) (toLuma : Rgb → ℕ) (E : ℚ → ℚ)
    (options : DeblurOptions) : RgbImg × DeblurResult :=
  let gray : GrayImg := ⟨image.width, image.height, fun x y => toLuma (image.pix x y)⟩
  let before_metrics := BlurDetector.detect_from_image gray options.blur_threshold
  if options.auto_detect && !before_metrics.is_blurry then
    (image, ⟨before_metrics, none, false, options.algorithm, (image.width, image.height)⟩)
  else
    let img2 := apply_unsharp_mask E image options.unsharp_sigma options.unsharp_amount
    let gray2 : GrayImg := ⟨img2.width, img2.height, fun x y => toLuma (img2.pix x y)⟩
    let after_metrics := BlurDetector.detect_from_image gray2 options.blur_threshold
    (img2, ⟨before_metrics, some after_metrics, true, options.algorithm,
      (image.width, image.height)⟩)

/-- C6: with `auto_detect = true`, if the Laplacian variance of the
grayscale conversion is not below `blur_threshold` (the image is not
blurry), `Deblurrer::process_in_place` returns the input image
unchanged (every pixel equal) with `processed = false`. -/
theorem process_in_place_not_blurry (image : RgbImg) (toLuma : Rgb → ℕ) (E : ℚ → ℚ)
    (options : DeblurOptions) (hauto : options.auto_detect = true)
    (hvar : options.blur_threshold ≤ BlurDetector.laplacian_variance
      ⟨image.width, image.height, fun x y => toLuma (image.pix x y)⟩) :
    (process_in_place image toLuma E options).1 = image ∧
    (process_in_place image toLuma E options).2.processed = false := by
  unfold process_in_place
  have hblur : (BlurDetector.detect_from_image
      ⟨image.width, image.height, fun x y => toLuma (image.pix x y)⟩
      options.blur_threshold).is_blurry = false := by
    unfold BlurDetector.detect_from_image
    simp only [decide_eq_false_iff_not, not_lt]
    exact hvar
  dsimp only
  rw [hauto, hblur]
  simp

/-- A 1×1 all-white image: its Laplacian variance is `0`. -/
def c6Img : RgbImg := ⟨1, 1, fun _ _ => (255, 255, 255)⟩

/-- Options with `auto_detect` on and blur threshold `0`. -/
def c6Opts : DeblurOptions := ⟨.UnsharpMask, true, 0, 3/2, 3/2, none⟩

/-- Witness for C6 at a concrete input. -/
theorem process_in_place_not_blurry_witness :
    (c6Opts.auto_detect = true ∧
      c6Opts.blur_threshold ≤ BlurDetector.laplacian_variance
        ⟨c6Img.width, c6Img.height, fun x y => (fun p => p.1) (c6Img.pix x y)⟩) ∧
    ((process_in_place c6Img (fun p => p.1) (fun q => q) c6Opts).1 = c6Img ∧
      (process_in_place c6Img (fun p => p.1) (fun q => q) c6Opts).2.processed = false) := by
  have h1 : c6Opts.auto_detect = true := rfl
  have h2 : c6Opts.blur_threshold ≤ BlurDetector.laplacian_variance
      ⟨c6Img.width, c6Img.height, fun x y => (fun p => p.1) (c6Img.pix x y)⟩ := by
    unfold BlurDetector.laplacian_variance
    rw [if_pos (by norm_num [c6Img])]
    rfl
  exact ⟨⟨h1, h2⟩, process_in_place_not_blurry c6Img (fun p => p.1) (fun q => q) c6Opts h1 h2⟩

end Deblurrer

-- ============================================================
-- margin/content_aware.rs : content-aware boundary detection (C9, C10)
-- ============================================================

/-- Rust `as u32` on a float: truncate toward zero and saturate to
`[0, 2^32-1]`. -/
def f32_as_u32 (q : ℚ) : ℕ := if q < 0 then 0 else min (⌊q⌋.toNat) 4294967295

/-- Modelled from the spec: the error kinds of `margin/types.rs`
(the file is absent from the source tree); `NoContentDetected` is
raised by content-aware boundary detection when no valid components
remain. -/
inductive MarginError where
  | ImageNotFound
  | InvalidImage (msg : String)
  | NoContentDetected
  deriving DecidableEq

namespace ContentAwareBoundaryDetector

/-- `ContentAwareOptions` from `margin/content_aware.rs` (`f32` fields
modelled as exact rationals). -/
structure ContentAwareOptions where
  min_char_size : ℕ
  max_char_size : ℕ
  safety_buffer_percent : ℚ
  min_safety_buffer : ℕ
  aggressive_trim : Bool
  custom_threshold : Option ℕ

/-- `ContentBoundary`: one edge's detection result. -/
structure ContentBoundary where
  safe_position : ℕ
  aggressive_position : ℕ
  confidence : ℚ
  component_count : ℕ
  deriving DecidableEq

/-- `ContentBoundaries`: all four edges. -/
structure ContentBoundaries where
  top : ContentBoundary
  bottom : ContentBoundary
  left : ContentBoundary
  right : ContentBoundary
  image_size : ℕ × ℕ
  otsu_threshold : ℕ
  total_components : ℕ
  deriving DecidableEq

/-- `ConnectedComponent`: a bounding box plus pixel count. -/
structure ConnectedComponent where
  min_x : ℕ
  min_y : ℕ
  max_x : ℕ
  max_y : ℕ
  pixel_count : ℕ
  deriving DecidableEq

/-- `ConnectedComponent::new`. -/
def ConnectedComponent.create (x y : ℕ) : ConnectedComponent := ⟨x, y, x, y, 1⟩

/-- `ConnectedComponent::expand`. -/
def ConnectedComponent.expand (c : ConnectedComponent) (x y : ℕ) : ConnectedComponent :=
  ⟨min c.min_x x, min c.min_y y, max c.max_x x, max c.max_y y, c.pixel_count + 1⟩

/-- `ConnectedComponent::width` (`max_x - min_x + 1`). -/
def ConnectedComponent.cwidth (c : ConnectedComponent) : ℕ := c.max_x - c.min_x + 1

/-- `ConnectedComponent::height` (`max_y - min_y + 1`). -/
def ConnectedComponent.cheight (c : ConnectedComponent) : ℕ := c.max_y - c.min_y + 1

/-- `ConnectedComponent::aspect_ratio`: the larger of `w/h`, `h/w`
with the divisor forced to at least `1`. -/
def ConnectedComponent.aspect_ratio (c : ConnectedComponent) : ℚ :=
  let w : ℚ := (c.cwidth : ℚ)
  let h : ℚ := (c.cheight : ℚ)
  if h < w then w / max h 1 else h / max w 1

/-- `ContentAwareBoundaryDetector::binarize_for_content`: invert so
dark pixels (text) become white (255). -/
def binarize_for_content (gray : GrayImg) (threshold : ℕ) : GrayImg :=
  ⟨gray.width, gray.height, fun x y => if gray.pix x y < threshold then 255 else 0⟩

/-- Mark one index of the `visited` array. -/
def setIdx (f : ℕ → Bool) (i : ℕ) : ℕ → Bool := fun j => if j = i then true else f j

/-- The 8-connected neighbourhood offsets, in source order. -/
def neighborOffsets : List (ℤ × ℤ) :=
  [(-1, -1), (0, -1), (1, -1), (-1, 0), (1, 0), (-1, 1), (0, 1), (1, 1)]

/-- The body of the `while let Some((x, y)) = queue.pop_front()` loop
of `flood_fill`: visit the eight neighbours of `(x, y)`, marking,
expanding and enqueueing each unvisited foreground pixel. -/
def floodNeighbors (binary : GrayImg) (x y : ℕ)
    (st : (ℕ → Bool) × ConnectedComponent × List (ℕ × ℕ)) :
    (ℕ → Bool) × ConnectedComponent × List (ℕ × ℕ) :=
  neighborOffsets.foldl (fun st d =>
    let nx : ℤ := (x : ℤ) + d.1
    let ny : ℤ := (y : ℤ) + d.2
    if 0 ≤ nx ∧ nx < (binary.width : ℤ) ∧ 0 ≤ ny ∧ ny < (binary.height : ℤ) then
      let nxn := nx.toNat
      let nyn := ny.toNat
      let idx := nyn * binary.width + nxn
      if !st.1 idx ∧ 0 < binary.pix nxn nyn then
        (setIdx st.1 idx, st.2.1.expand nxn nyn, st.2.2 ++ [(nxn, nyn)])
      else st
    else st) st

/-- The BFS loop of `flood_fill`, with explicit fuel (each step pops
one queue entry; the Rust loop always terminates because every push
first marks an unvisited index, so `width*height + 1` fuel outlasts
every possible pop). -/
def flood_fill_go (binary : GrayImg) :
    ℕ → (ℕ → Bool) → ConnectedComponent → List (ℕ × ℕ) → ConnectedComponent × (ℕ → Bool)
  | 0, visited, comp, _ => (comp, visited)
  | _ + 1, visited, comp, [] => (comp, visited)
  | fuel + 1, visited, comp, (x, y) :: queue =>
      let s := floodNeighbors binary x y (visited, comp, queue)
      flood_fill_go binary fuel s.1 s.2.1 s.2.2

/-- `ContentAwareBoundaryDetector::flood_fill`. -/
def flood_fill (binary : GrayImg) (start_x start_y : ℕ) (visited : ℕ → Bool) (fuel : ℕ) :
    ConnectedComponent × (ℕ → Bool) :=
  flood_fill_go binary fuel (setIdx visited (start_y * binary.width + start_x))
    (ConnectedComponent.create start_x start_y) [(start_x, start_y)]

/-- `ContentAwareBoundaryDetector::find_connected_components`: scan
pixels in row-major order, flood-filling from each unvisited
foreground pixel. -/
def find_connected_components (binary : GrayImg) : List ConnectedComponent :=
  ((MarkerRemover.coords binary.width binary.height).foldl
    (fun (st : (ℕ → Bool) × List ConnectedComponent) c =>
      let idx := c.2 * binary.width + c.1
      if !st.1 idx ∧ 0 < binary.pix c.1 c.2 then
        let r := flood_fill binary c.1 c.2 st.1 (binary.width * binary.height + 1)
        (r.2, if 0 < r.1.pixel_count then st.2 ++ [r.1] else st.2)
      else st)
    (fun _ => false, [])).2

/-- `ContentAwareBoundaryDetector::is_valid_component`: size then
aspect-ratio filter (`MIN_COMPONENT_ASPECT_RATIO = 0.05`,
`MAX_COMPONENT_ASPECT_RATIO = 20.0`). -/
def is_valid_component (c : ConnectedComponent) (options : ContentAwareOptions) : Bool :=
  let w := c.cwidth
  let h := c.cheight
  let min_dim := min w h
  let max_dim := max w h
  if min_dim < options.min_char_size ∨ options.max_char_size < max_dim then false
  else if c.aspect_ratio < 1/20 ∨ 20 < c.aspect_ratio then false
  else true

/-- The safety buffer of `calculate_boundaries`:
`((dim as f32 * safety_buffer_percent / 100.0) as u32).max(min_safety_buffer)`. -/
def safetyBuffer (dim : ℕ) (options : ContentAwareOptions) : ℕ :=
  max (f32_as_u32 ((dim : ℚ) * options.safety_buffer_percent / 100)) options.min_safety_buffer

/-- The running extremes and per-edge counts of the
`calculate_boundaries` component loop. -/
structure BoundAcc where
  min_x : ℕ
  max_x : ℕ
  min_y : ℕ
  max_y : ℕ
  top_count : ℕ
  bottom_count : ℕ
  left_count : ℕ
  right_count : ℕ

/-- One iteration of the `for comp in components` loop of
`calculate_boundaries` (`edge_threshold_y = height / 4`,
`edge_threshold_x = width / 4`). -/
def boundStep (width height : ℕ) (st : BoundAcc) (comp : ConnectedComponent) : BoundAcc :=
  ⟨min st.min_x comp.min_x, max st.max_x comp.max_x,
   min st.min_y comp.min_y, max st.max_y comp.max_y,
   if comp.min_y < height / 4 then st.top_count + 1 else st.top_count,
   if height - height / 4 < comp.max_y then st.bottom_count + 1 else st.bottom_count,
   if comp.min_x < width / 4 then st.left_count + 1 else st.left_count,
   if width - width / 4 < comp.max_x then st.right_count + 1 else st.right_count⟩

/-- The `calc_confidence` closure of `calculate_boundaries`. -/
def calc_confidence (total : ℕ) (count : ℕ) : ℚ :=
  if (total : ℚ) = 0 then 0 else min ((count : ℚ) / (total : ℚ)) 1

/-- `ContentAwareBoundaryDetector::calculate_boundaries`.  The `u32`
sums `max_y + buffer_y` and `max_x + buffer_x` wrap, hence the
explicit `wrap32`. -/
def calculate_boundaries (components : List ConnectedComponent) (width height : ℕ)
    (options : ContentAwareOptions) (threshold : ℕ) : ContentBoundaries :=
  let ext := components.foldl (boundStep width height) ⟨width, 0, height, 0, 0, 0, 0, 0⟩
  let buffer_x := safetyBuffer width options
  let buffer_y := safetyBuffer height options
  let safe_top := ext.min_y - buffer_y
  let safe_bottom := min (wrap32 (ext.max_y + buffer_y)) height
  let safe_left := ext.min_x - buffer_x
  let safe_right := min (wrap32 (ext.max_x + buffer_x)) width
  let total := components.length
  ⟨⟨safe_top, ext.min_y, calc_confidence total ext.top_count, ext.top_count⟩,
   ⟨safe_bottom, ext.max_y, calc_confidence total ext.bottom_count, ext.bottom_count⟩,
   ⟨safe_left, ext.min_x, calc_confidence total ext.left_count, ext.left_count⟩,
   ⟨safe_right, ext.max_x, calc_confidence total ext.right_count, ext.right_count⟩,
   (width, height), threshold, total⟩

/-- `ContentAwareBoundaryDetector::detect_from_image`, parametric in
the Otsu thresholding function (`ImageProcDeskewer::otsu_threshold`
lives in the `deskew` module, absent from the source tree). -/
def detect_from_image (gray : GrayImg) (options : ContentAwareOptions)
    (otsu : GrayImg → ℕ) : Except MarginError ContentBoundaries :=
  let threshold := options.custom_threshold.getD (otsu gray)
  let binary := binarize_for_content gray threshold
  let components := find_connected_components binary
  let valid_components := components.filter (fun c => is_valid_component c options)
  if valid_components.isEmpty then .error .NoContentDetected
  else .ok (calculate_boundaries valid_components gray.width gray.height options threshold)


/-- `is_valid_component` in the claim's vocabulary: minimum dimension,
maximum dimension and aspect-ratio window. -/
theorem is_valid_component_iff (c : ConnectedComponent) (options : ContentAwareOptions) :
    is_valid_component c options = true ↔
      (options.min_char_size ≤ min c.cwidth c.cheight ∧
       max c.cwidth c.cheight ≤ options.max_char_size ∧
       1/20 ≤ c.aspect_ratio ∧ c.aspect_ratio ≤ 20) := by
  unfold is_valid_component
  dsimp only
  split_ifs with h1 h2
  · simp only [Bool.false_eq_true, false_iff]
    rintro ⟨ha, hb, _, _⟩
    rcases h1 with h | h <;> omega
  · simp only [Bool.false_eq_true, false_iff]
    rintro ⟨_, _, hc, hd⟩
    rcases h2 with h | h
    · exact absurd hc (not_le.mpr h)
    · exact absurd hd (not_le.mpr h)
  · push_neg at h1 h2
    constructor
    · intro _
      exact ⟨by omega, by omega, h2.1, h2.2⟩
    · intro _
      rfl

/-- C9: `detect_from_image` returns `NoContentDetected` exactly when
no connected component of the binarised image passes the size filter
and the aspect-ratio filter, and it returns no other error. -/
theorem detect_no_content_iff (gray : GrayImg) (options : ContentAwareOptions)
    (otsu : GrayImg → ℕ) :
    (detect_from_image gray options otsu = .error .NoContentDetected ↔
      ∀ c ∈ find_connected_components
          (binarize_for_content gray (options.custom_threshold.getD (otsu gray))),
        ¬(options.min_char_size ≤ min c.cwidth c.cheight ∧
          max c.cwidth c.cheight ≤ options.max_char_size ∧
          1/20 ≤ c.aspect_ratio ∧ c.aspect_ratio ≤ 20)) ∧
    ∀ e, detect_from_image gray options otsu = .error e → e = .NoContentDetected := by
  unfold detect_from_image
  dsimp only
  constructor
  · constructor
    · intro h c hc
      by_cases he : ((find_connected_components
          (binarize_for_content gray (options.custom_threshold.getD (otsu gray)))).filter
            (fun c => is_valid_component c options)).isEmpty = true
      · rw [List.isEmpty_iff] at he
        have hval : is_valid_component c options = false := by
          by_contra hcon
          have htrue : is_valid_component c options = true := by
            cases hv : is_valid_component c options
            · exact absurd hv hcon
            · rfl
          have : c ∈ ((find_connected_components
              (binarize_for_content gray (options.custom_threshold.getD (otsu gray)))).filter
                (fun c => is_valid_component c options)) := List.mem_filter.mpr ⟨hc, htrue⟩
          rw [he] at this
          exact absurd this (List.not_mem_nil c)
        intro hp
        rw [(is_valid_component_iff c options).mpr hp] at hval
        exact absurd hval (by simp)
      · rw [if_neg he] at h
        exact absurd h (by simp)
    · intro hall
      have he : ((find_connected_components
          (binarize_for_content gray (options.custom_threshold.getD (otsu gray)))).filter
            (fun c => is_valid_component c options)) = [] := by
        rw [List.filter_eq_nil_iff]
        intro c hc
        intro htrue
        exact hall c hc ((is_valid_component_iff c options).mp htrue)
      rw [if_pos (by rw [he]; rfl)]
  · intro e h
    by_cases he : ((find_connected_components
        (binarize_for_content gray (options.custom_threshold.getD (otsu gray)))).filter
          (fun c => is_valid_component c options)).isEmpty = true
    · rw [if_pos he] at h
      cases h
      rfl
    · rw [if_neg he] at h
      exact absurd h (by simp)


/-- A 1×1 all-white image: its binarisation has no foreground. -/
def c9Gray : GrayImg := ⟨1, 1, fun _ _ => 255⟩

/-- Default options with a custom threshold of `128`. -/
def c9Opts : ContentAwareOptions := ⟨6, 500, 1/2, 10, false, some 128⟩

/-- On the all-white image, detection fails with
`NoContentDetected`. -/
theorem c9_detect_white : detect_from_image c9Gray c9Opts (fun _ => 128) =
    .error .NoContentDetected := by
  have hcomps : find_connected_components (binarize_for_content c9Gray 128) = [] := by decide
  unfold detect_from_image
  dsimp only
  rw [show (c9Opts.custom_threshold.getD ((fun _ => 128) c9Gray)) = 128 from rfl, hcomps]
  rfl

/-- Witness for C9 at a concrete input. -/
theorem detect_no_content_iff_witness :
    (detect_from_image c9Gray c9Opts (fun _ => 128) = .error .NoContentDetected) ∧
    (MarginError.NoContentDetected = MarginError.NoContentDetected) ∧
    (∀ c ∈ find_connected_components
        (binarize_for_content c9Gray (c9Opts.custom_threshold.getD ((fun _ => 128) c9Gray))),
      ¬(c9Opts.min_char_size ≤ min c.cwidth c.cheight ∧
        max c.cwidth c.cheight ≤ c9Opts.max_char_size ∧
        1/20 ≤ c.aspect_ratio ∧ c.aspect_ratio ≤ 20)) :=
  ⟨c9_detect_white,
   (detect_no_content_iff c9Gray c9Opts (fun _ => 128)).2 .NoContentDetected c9_detect_white,
   (detect_no_content_iff c9Gray c9Opts (fun _ => 128)).1.mp c9_detect_white⟩


theorem floodNeighbors_bounds (binary : GrayImg) (x y : ℕ)
    (st : (ℕ → Bool) × ConnectedComponent × List (ℕ × ℕ))
    (h : st.2.1.max_x < binary.width ∧ st.2.1.max_y < binary.height) :
    (floodNeighbors binary x y st).2.1.max_x < binary.width ∧
    (floodNeighbors binary x y st).2.1.max_y < binary.height := by
  unfold floodNeighbors
  generalize neighborOffsets = L
  induction L generalizing st with
  | nil => exact h
  | cons d L ih =>
    rw [List.foldl_cons]
    apply ih
    dsimp only
    by_cases h1 : 0 ≤ (x : ℤ) + d.1 ∧ (x : ℤ) + d.1 < (binary.width : ℤ) ∧
        0 ≤ (y : ℤ) + d.2 ∧ (y : ℤ) + d.2 < (binary.height : ℤ)
    · rw [if_pos h1]
      by_cases h2 : (!st.1 (((y : ℤ) + d.2).toNat * binary.width + ((x : ℤ) + d.1).toNat) ∧
          0 < binary.pix ((x : ℤ) + d.1).toNat ((y : ℤ) + d.2).toNat)
      · rw [if_pos h2]
        dsimp only [ConnectedComponent.expand]
        refine ⟨?_, ?_⟩
        · apply max_lt h.1
          omega
        · apply max_lt h.2
          omega
      · rw [if_neg h2]
        exact h
    · rw [if_neg h1]
      exact h

theorem flood_fill_go_bounds (binary : GrayImg) :
    ∀ (fuel : ℕ) (visited : ℕ → Bool) (comp : ConnectedComponent) (queue : List (ℕ × ℕ)),
      comp.max_x < binary.width → comp.max_y < binary.height →
      (flood_fill_go binary fuel visited comp queue).1.max_x < binary.width ∧
      (flood_fill_go binary fuel visited comp queue).1.max_y < binary.height := by
  intro fuel
  induction fuel with
  | zero => intro visited comp queue h1 h2; exact ⟨h1, h2⟩
  | succ fuel ih =>
    intro visited comp queue h1 h2
    cases queue with
    | nil => exact ⟨h1, h2⟩
    | cons c queue =>
      obtain ⟨x, y⟩ := c
      rw [flood_fill_go]
      have hb := floodNeighbors_bounds binary x y (visited, comp, queue) ⟨h1, h2⟩
      exact ih _ _ _ hb.1 hb.2

theorem flood_fill_bounds (binary : GrayImg) (start_x start_y : ℕ) (visited : ℕ → Bool)
    (fuel : ℕ) (hx : start_x < binary.width) (hy : start_y < binary.height) :
    (flood_fill binary start_x start_y visited fuel).1.max_x < binary.width ∧
    (flood_fill binary start_x start_y visited fuel).1.max_y < binary.height :=
  flood_fill_go_bounds binary fuel _ _ _ hx hy

theorem mem_coords (width height : ℕ) (c : ℕ × ℕ) (hc : c ∈ MarkerRemover.coords width height) :
    c.1 < width ∧ c.2 < height := by
  unfold MarkerRemover.coords at hc
  obtain ⟨y, hy, hmem⟩ := List.mem_flatMap.mp hc
  obtain ⟨x, hx, heq⟩ := List.mem_map.mp hmem
  rw [← heq]
  exact ⟨List.mem_range.mp hx, List.mem_range.mp hy⟩

theorem find_connected_components_bounds (binary : GrayImg) :
    ∀ comp ∈ find_connected_components binary,
      comp.max_x < binary.width ∧ comp.max_y < binary.height := by
  unfold find_connected_components
  have hgen : ∀ (L : List (ℕ × ℕ)) (st : (ℕ → Bool) × List ConnectedComponent),
      (∀ c ∈ L, c.1 < binary.width ∧ c.2 < binary.height) →
      (∀ comp ∈ st.2, comp.max_x < binary.width ∧ comp.max_y < binary.height) →
      ∀ comp ∈ (L.foldl (fun (st : (ℕ → Bool) × List ConnectedComponent) c =>
          let idx := c.2 * binary.width + c.1
          if !st.1 idx ∧ 0 < binary.pix c.1 c.2 then
            let r := flood_fill binary c.1 c.2 st.1 (binary.width * binary.height + 1)
            (r.2, if 0 < r.1.pixel_count then st.2 ++ [r.1] else st.2)
          else st) st).2,
        comp.max_x < binary.width ∧ comp.max_y < binary.height := by
    intro L
    induction L with
    | nil => intro st _ hst; exact hst
    | cons c L ih =>
      intro st hL hst
      rw [List.foldl_cons]
      apply ih _ (fun d hd => hL d (by simp [hd]))
      dsimp only
      by_cases h1 : (!st.1 (c.2 * binary.width + c.1) ∧ 0 < binary.pix c.1 c.2)
      · rw [if_pos h1]
        dsimp only
        intro comp hcomp
        by_cases h2 : 0 < (flood_fill binary c.1 c.2 st.1
            (binary.width * binary.height + 1)).1.pixel_count
        · rw [if_pos h2] at hcomp
          rcases List.mem_append.mp hcomp with h | h
          · exact hst comp h
          · rw [List.mem_singleton.mp h]
            have hc := hL c (by simp)
            exact flood_fill_bounds binary c.1 c.2 st.1 _ hc.1 hc.2
        · rw [if_neg h2] at hcomp
          exact hst comp hcomp
      · rw [if_neg h1]
        exact hst
  exact hgen _ _ (fun c hc => mem_coords binary.width binary.height c hc) (by intro comp h; cases h)

theorem boundAcc_bounds (width height : ℕ) (components : List ConnectedComponent)
    (h : ∀ c ∈ components, c.max_x < width ∧ c.max_y < height)
    (hw : 0 < width) (hh : 0 < height) :
    (components.foldl (boundStep width height) ⟨width, 0, height, 0, 0, 0, 0, 0⟩).max_x < width ∧
    (components.foldl (boundStep width height) ⟨width, 0, height, 0, 0, 0, 0, 0⟩).max_y < height := by
  have hgen : ∀ (L : List ConnectedComponent) (st : BoundAcc),
      (∀ c ∈ L, c.max_x < width ∧ c.max_y < height) →
      st.max_x < width → st.max_y < height →
      (L.foldl (boundStep width height) st).max_x < width ∧
      (L.foldl (boundStep width height) st).max_y < height := by
    intro L
    induction L with
    | nil => intro st _ h1 h2; exact ⟨h1, h2⟩
    | cons c L ih =>
      intro st hL h1 h2
      rw [List.foldl_cons]
      apply ih _ (fun d hd => hL d (by simp [hd]))
      · exact max_lt h1 (hL c (by simp)).1
      · exact max_lt h2 (hL c (by simp)).2
  exact hgen components _ h hw hh


/-- C10: every successful `detect_from_image` result has, per edge,
the safe position on the outward side of the aggressive position, and
bottom/right safe positions within the image; hypotheses rule out
`u32` wrap of `extreme + buffer`. -/
theorem detect_from_image_rect_bounds (gray : GrayImg) (options : ContentAwareOptions)
    (otsu : GrayImg → ℕ) (b : ContentBoundaries)
    (hok : detect_from_image gray options otsu = .ok b)
    (hbx : gray.width + safetyBuffer gray.width options < 4294967296)
    (hby : gray.height + safetyBuffer gray.height options < 4294967296) :
    b.top.safe_position ≤ b.top.aggressive_position ∧
    b.left.safe_position ≤ b.left.aggressive_position ∧
    b.bottom.aggressive_position ≤ b.bottom.safe_position ∧
    b.bottom.safe_position ≤ gray.height ∧
    b.right.aggressive_position ≤ b.right.safe_position ∧
    b.right.safe_position ≤ gray.width := by
  unfold detect_from_image at hok
  dsimp only at hok
  set v := (find_connected_components
      (binarize_for_content gray (options.custom_threshold.getD (otsu gray)))).filter
        (fun c => is_valid_component c options) with hv
  by_cases he : v.isEmpty = true
  · rw [if_pos he] at hok
    exact absurd hok (by simp)
  · rw [if_neg he] at hok
    injection hok with hb
    have hbounds : ∀ c ∈ v, c.max_x < gray.width ∧ c.max_y < gray.height := by
      intro c hc
      rw [hv] at hc
      have h1 := find_connected_components_bounds
        (binarize_for_content gray (options.custom_threshold.getD (otsu gray))) c
        (List.mem_filter.mp hc).1
      exact h1
    have hne : v ≠ [] := by
      intro hnil
      rw [hnil] at he
      exact he rfl
    obtain ⟨c0, hc0⟩ := List.exists_mem_of_ne_nil v hne
    have hw : 0 < gray.width := lt_of_le_of_lt (Nat.zero_le _) (hbounds c0 hc0).1
    have hh : 0 < gray.height := lt_of_le_of_lt (Nat.zero_le _) (hbounds c0 hc0).2
    have hext := boundAcc_bounds gray.width gray.height v hbounds hw hh
    rw [← hb]
    unfold calculate_boundaries
    dsimp only
    refine ⟨Nat.sub_le _ _, Nat.sub_le _ _, ?_, min_le_right _ _, ?_, min_le_right _ _⟩
    · have hwrap : wrap32 ((v.foldl (boundStep gray.width gray.height)
          ⟨gray.width, 0, gray.height, 0, 0, 0, 0, 0⟩).max_y + safetyBuffer gray.height options) =
          (v.foldl (boundStep gray.width gray.height)
          ⟨gray.width, 0, gray.height, 0, 0, 0, 0, 0⟩).max_y + safetyBuffer gray.height options := by
        apply Nat.mod_eq_of_lt
        have := hext.2
        omega
      rw [hwrap]
      exact le_min (Nat.le_add_right _ _) (le_of_lt hext.2)
    · have hwrap : wrap32 ((v.foldl (boundStep gray.width gray.height)
          ⟨gray.width, 0, gray.height, 0, 0, 0, 0, 0⟩).max_x + safetyBuffer gray.width options) =
          (v.foldl (boundStep gray.width gray.height)
          ⟨gray.width, 0, gray.height, 0, 0, 0, 0, 0⟩).max_x + safetyBuffer gray.width options := by
        apply Nat.mod_eq_of_lt
        have := hext.1
        omega
      rw [hwrap]
      exact le_min (Nat.le_add_right _ _) (le_of_lt hext.1)


/-- A 1×1 all-black image: one single-pixel component. -/
def c10Gray : GrayImg := ⟨1, 1, fun _ _ => 0⟩

/-- Options admitting single-pixel components (min size 1, no
buffers). -/
def c10Opts : ContentAwareOptions := ⟨1, 500, 0, 0, false, some 128⟩

/-- The boundaries detected on `c10Gray`. -/
def c10B : ContentBoundaries :=
  ⟨⟨0, 0, 0, 0⟩, ⟨0, 0, 0, 0⟩, ⟨0, 0, 0, 0⟩, ⟨0, 0, 0, 0⟩, (1, 1), 128, 1⟩

/-- Detection on the all-black pixel succeeds with `c10B`. -/
theorem c10_detect : detect_from_image c10Gray c10Opts (fun _ => 128) = .ok c10B := by
  have hcomp : find_connected_components (binarize_for_content c10Gray 128) =
      [⟨0, 0, 0, 0, 1⟩] := by decide
  have hval : is_valid_component ⟨0, 0, 0, 0, 1⟩ c10Opts = true := by
    norm_num [is_valid_component, ConnectedComponent.aspect_ratio,
      ConnectedComponent.cwidth, ConnectedComponent.cheight, c10Opts]
  have hcalc : calculate_boundaries [⟨0, 0, 0, 0, 1⟩] 1 1 c10Opts 128 = c10B := by
    unfold calculate_boundaries boundStep safetyBuffer calc_confidence f32_as_u32 wrap32
    norm_num [c10Opts, c10B]
  unfold detect_from_image
  dsimp only
  rw [show c10Opts.custom_threshold.getD ((fun _ => 128) c10Gray) = 128 from rfl, hcomp]
  rw [List.filter_cons, if_pos hval, List.filter_nil]
  rw [if_neg (by simp)]
  rw [show c10Gray.width = 1 from rfl, show c10Gray.height = 1 from rfl, hcalc]


/-- Witness for C10 at a concrete input. -/
theorem detect_from_image_rect_bounds_witness :
    ((detect_from_image c10Gray c10Opts (fun _ => 128) = .ok c10B) ∧
     (c10Gray.width + safetyBuffer c10Gray.width c10Opts < 4294967296) ∧
     (c10Gray.height + safetyBuffer c10Gray.height c10Opts < 4294967296)) ∧
    (c10B.top.safe_position ≤ c10B.top.aggressive_position ∧
     c10B.left.safe_position ≤ c10B.left.aggressive_position ∧
     c10B.bottom.aggressive_position ≤ c10B.bottom.safe_position ∧
     c10B.bottom.safe_position ≤ c10Gray.height ∧
     c10B.right.aggressive_position ≤ c10B.right.safe_position ∧
     c10B.right.safe_position ≤ c10Gray.width) := by
  have hbx : c10Gray.width + safetyBuffer c10Gray.width c10Opts < 4294967296 := by
    norm_num [c10Gray, safetyBuffer, f32_as_u32, c10Opts]
  have hby : c10Gray.height + safetyBuffer c10Gray.height c10Opts < 4294967296 := by
    norm_num [c10Gray, safetyBuffer, f32_as_u32, c10Opts]
  exact ⟨⟨c10_detect, hbx, hby⟩,
    detect_from_image_rect_bounds c10Gray c10Opts (fun _ => 128) c10B c10_detect hbx hby⟩

end ContentAwareBoundaryDetector

-- ============================================================
-- vertical_detect.rs : vertical text detection (C8)
-- ============================================================

namespace VerticalDetect

/-- `VerticalDetectError` from `vertical_detect.rs`. -/
inductive VerticalDetectError where
  | InvalidImage (msg : String)
  | ProcessingError (msg : String)
  deriving DecidableEq

/-- `VerticalDetectOptions` (`f64` threshold as exact rational). -/
structure VerticalDetectOptions where
  black_threshold : ℕ
  block_count : ℕ
  vertical_threshold : ℚ

/-- `VerticalDetectResult`. -/
structure VerticalDetectResult where
  vertical_probability : ℚ
  horizontal_score : ℚ
  vertical_score : ℚ
  is_vertical : Bool
  deriving DecidableEq

/-- One pixel of the black-cluster counting loop: state
`(intersects, in_black)`. -/
def runStep (st : ℕ × Bool) (b : Bool) : ℕ × Bool :=
  if b then (if !st.2 then (st.1 + 1, true) else st) else (st.1, false)

/-- The `is_black` flags of one row restricted to
`start_x..end_x`. -/
def rowFlags (image : GrayImg) (options : VerticalDetectOptions) (start_x end_x y : ℕ) :
    List Bool :=
  (List.range (end_x - start_x)).map
    (fun (i : ℕ) => decide (image.pix (start_x + i) y ≤ options.black_threshold))

/-- The number of black clusters in one row segment (the inner `for x`
loop of `compute_linear_score`). -/
def intersectionsRow (image : GrayImg) (options : VerticalDetectOptions)
    (start_x end_x y : ℕ) : ℕ :=
  ((rowFlags image options start_x end_x y).foldl runStep (0, false)).1

/-- `intersections_per_row` for one block. -/
def rowCounts (image : GrayImg) (options : VerticalDetectOptions)
    (start_x end_x height : ℕ) : List ℕ :=
  (List.range height).map (fun (y : ℕ) => intersectionsRow image options start_x end_x y)

/-- One step of Welford's online mean/variance update; state
`(count, mean, m2)`. -/
def welfordStep (st : ℕ × ℚ × ℚ) (x : ℕ) : ℕ × ℚ × ℚ :=
  let count := st.1 + 1
  let delta := (x : ℚ) - st.2.1
  let mean := st.2.1 + delta / (count : ℚ)
  let delta2 := (x : ℚ) - mean
  (count, mean, st.2.2 + delta * delta2)

/-- The line-thickness / gap-height extraction loop of
`compute_linear_score`, as structural recursion on the flag list with
the loop state `(in_line, run_len)`; returns
`(line_thicknesses, gap_heights)` in push order. -/
def extractGo (in_line : Bool) (run_len : ℕ) : List Bool → List ℕ × List ℕ
  | [] =>
      if 0 < run_len then
        if in_line then ([run_len], []) else ([], [run_len])
      else ([], [])
  | b :: t =>
      if b = in_line then extractGo in_line (run_len + 1) t
      else if 0 < run_len then
        let r := extractGo b 1 t
        if in_line then (run_len :: r.1, r.2) else (r.1, run_len :: r.2)
      else extractGo b 1 t

/-- `median` from `vertical_detect.rs` (sorts, then picks the middle
or the mean of the two middles). -/
def median (data : List ℕ) : ℕ :=
  if data.isEmpty then 0
  else
    let d := data.insertionSort (· ≤ ·)
    let mid := d.length / 2
    if d.length % 2 = 1 then d.getD mid 0
    else (d.getD (mid - 1) 0 + d.getD mid 0) / 2

/-- The per-block score computed from `intersections_per_row`:
variation coefficient, zero-line ratio and separation ratio combined
with weights 0.4 / 0.2 / 0.4 and clamped to `[0,1]`.  The `f64` square
root is the parameter `sqrtA`. -/
def scoreOfCounts (sqrtA : ℚ → ℚ) (counts : List ℕ) : ℚ :=
  let zero_lines := counts.countP (fun c => decide (c = 0))
  let w := counts.foldl welfordStep (0, 0, 0)
  if w.1 = 0 then 0
  else
    let variance := w.2.2 / (w.1 : ℚ)
    let stddev := sqrtA variance
    let variation_coefficient := if 0 < w.2.1 then stddev / w.2.1 else 0
    let zero_ratio := (zero_lines : ℚ) / (w.1 : ℚ)
    let threshold := max w.2.1 1
    let runs := extractGo false 0 (counts.map (fun (c : ℕ) => decide (threshold ≤ (c : ℚ))))
    let separation_ratio :=
      if ¬runs.1.isEmpty ∧ ¬runs.2.isEmpty then
        let median_line := median runs.1
        let median_gap := median runs.2
        (median_gap : ℚ) / ((median_line : ℚ) + (median_gap : ℚ) + 1/1000000000)
      else 0
    ratClamp (variation_coefficient * (2/5) + zero_ratio * (1/5) + separation_ratio * (2/5)) 0 1

/-- One block of `compute_linear_score`: the score of the block's row
intersection counts. -/
def blockScore (sqrtA : ℚ → ℚ) (image : GrayImg) (options : VerticalDetectOptions)
    (start_x end_x height : ℕ) : ℚ :=
  scoreOfCounts sqrtA (rowCounts image options start_x end_x height)

/-- `compute_linear_score`: split into `block_count.max(1)` blocks of
width `width / block_count` (the last block absorbs the remainder) and
average the block scores. -/
def compute_linear_score (sqrtA : ℚ → ℚ) (image : GrayImg)
    (options : VerticalDetectOptions) : ℚ :=
  if image.width = 0 ∨ image.height = 0 then 0
  else
    let block_count := max options.block_count 1
    let block_width := image.width / block_count
    if block_width = 0 then 0
    else
      let block_scores := (List.range block_count).map (fun (blk : ℕ) =>
        blockScore sqrtA image options (blk * block_width)
          (if blk = block_count - 1 then image.width else blk * block_width + block_width)
          image.height)
      if block_scores.isEmpty then 0
      else block_scores.sum / (block_scores.length : ℚ)

/-- `rotate_90_clockwise`: the pixel at `(x, y)` moves to
`(y, width - 1 - x)`, so the new image reads
`(a, b) ↦ (width - 1 - b, a)`. -/
def rotate_90_clockwise (image : GrayImg) : GrayImg :=
  ⟨image.height, image.width, fun a b => image.pix (image.width - 1 - b) a⟩

/-- `detect_vertical_probability`: errors on zero dimensions,
otherwise normalises `vertical_score / (h + v + 1e-9)` clamped to
`[0,1]`. -/
def detect_vertical_probability (sqrtA : ℚ → ℚ) (image : GrayImg)
    (options : VerticalDetectOptions) :
    Except VerticalDetectError VerticalDetectResult :=
  if image.width = 0 ∨ image.height = 0 then
    .error (.InvalidImage "Image has zero dimensions")
  else
    let horizontal_score := compute_linear_score sqrtA image options
    let vertical_score := compute_linear_score sqrtA (rotate_90_clockwise image) options
    let sum := horizontal_score + vertical_score + 1/1000000000
    let vertical_probability := ratClamp (vertical_score / sum) 0 1
    .ok ⟨vertical_probability, horizontal_score, vertical_score,
      decide (options.vertical_threshold ≤ vertical_probability)⟩


/-- A 1×1 white image; with the default `block_count = 4` its block
width is `0` and both linear scores are `0`. -/
def c8Img : GrayImg := ⟨1, 1, fun _ _ => 255⟩

/-- The default options: threshold 128, 4 blocks. -/
def c8Opts : VerticalDetectOptions := ⟨128, 4, 1/2⟩

theorem c8_score_zero : compute_linear_score (fun q => q) c8Img c8Opts = 0 := by
  unfold compute_linear_score
  rw [if_neg (by norm_num [c8Img])]
  dsimp only
  rw [if_pos (by norm_num [c8Img, c8Opts])]

theorem c8_score_zero_rot :
    compute_linear_score (fun q => q) (rotate_90_clockwise c8Img) c8Opts = 0 := by
  unfold compute_linear_score
  rw [if_neg (by norm_num [c8Img, rotate_90_clockwise])]
  dsimp only
  rw [if_pos (by norm_num [c8Img, rotate_90_clockwise, c8Opts])]

/-- Counterexample to C8 as stated: on the 1×1 image with default
options both orientations get probability `0` (block width `1/4 = 0`
makes both scores `0`, and `0/(0+0+1e-9) = 0`), so the two
probabilities sum to `0`, not `1 ± 1e-6`. -/
theorem c8_counterexample :
    (c8Img.width ≠ 0 ∧ c8Img.height ≠ 0) ∧
    ∃ r1 r2, detect_vertical_probability (fun q => q) c8Img c8Opts = .ok r1 ∧
      detect_vertical_probability (fun q => q) (rotate_90_clockwise c8Img) c8Opts = .ok r2 ∧
      ¬(|r1.vertical_probability + r2.vertical_probability - 1| ≤ 1/1000000) := by
  refine ⟨⟨by norm_num [c8Img], by norm_num [c8Img]⟩,
    ⟨0, 0, 0, false⟩, ⟨0, 0, 0, false⟩, ?_, ?_, ?_⟩
  · unfold detect_vertical_probability
    rw [if_neg (by norm_num [c8Img])]
    dsimp only
    rw [c8_score_zero, c8_score_zero_rot]
    norm_num [ratClamp, c8Opts]
  · unfold detect_vertical_probability
    rw [if_neg (by norm_num [c8Img, rotate_90_clockwise])]
    dsimp only
    have hrr : compute_linear_score (fun q => q)
        (rotate_90_clockwise (rotate_90_clockwise c8Img)) c8Opts = 0 := by
      unfold compute_linear_score
      rw [if_neg (by norm_num [c8Img, rotate_90_clockwise])]
      dsimp only
      rw [if_pos (by norm_num [c8Img, rotate_90_clockwise, c8Opts])]
    rw [c8_score_zero_rot, hrr]
    norm_num [ratClamp, c8Opts]
  · norm_num


/-- Number of rising edges (starts of true-runs) of a flag list, given
the preceding flag. -/
def risesFrom (prev : Bool) : List Bool → ℕ
  | [] => 0
  | b :: t => (if b ∧ ¬prev then 1 else 0) + risesFrom b t

theorem runStep_fold (l : List Bool) :
    ∀ (c : ℕ) (p : Bool), (l.foldl runStep (c, p)).1 = c + risesFrom p l := by
  induction l with
  | nil => intro c p; simp [risesFrom]
  | cons b t ih =>
    intro c p
    rw [List.foldl_cons, risesFrom]
    cases b with
    | false =>
      have hs : runStep (c, p) false = (c, false) := by
        unfold runStep
        simp
      rw [hs, ih]
      simp
    | true =>
      cases p with
      | false =>
        have hs : runStep (c, false) true = (c + 1, true) := by
          unfold runStep
          simp
        rw [hs, ih]
        simp
        omega
      | true =>
        have hs : runStep (c, true) true = (c, true) := by
          unfold runStep
          simp
        rw [hs, ih]
        simp

theorem risesFrom_append (xs ys : List Bool) :
    ∀ p, risesFrom p (xs ++ ys) = risesFrom p xs + risesFrom (xs.getLastD p) ys := by
  induction xs with
  | nil => intro p; simp [risesFrom, List.getLastD]
  | cons b t ih =>
    intro p
    rw [List.cons_append, risesFrom, ih b, risesFrom]
    have : (b :: t).getLastD p = t.getLastD b := by
      cases t with
      | nil => simp [List.getLastD]
      | cons c s => simp [List.getLastD]
    rw [this]
    omega

theorem risesFrom_false_sub_true (l : List Bool) :
    risesFrom false l = risesFrom true l + (if l.headD false then 1 else 0) := by
  cases l with
  | nil => simp [risesFrom]
  | cons b t =>
    rw [risesFrom, risesFrom]
    cases b <;> simp [Nat.add_comm]

theorem risesFrom_reverse (l : List Bool) :
    risesFrom false l.reverse = risesFrom false l := by
  induction l with
  | nil => rfl
  | cons b t ih =>
    rw [List.reverse_cons, risesFrom_append, ih, risesFrom]
    have hlast : t.reverse.getLastD false = t.headD false := by
      cases t with
      | nil => rfl
      | cons c s =>
        rw [List.headD_cons]
        have : (c :: s).reverse.getLast? = some c := by
          rw [List.getLast?_reverse]
          rfl
        rw [List.getLastD_eq_getLast?, this]
        rfl
    rw [hlast]
    cases b with
    | false => simp [risesFrom]
    | true =>
      rw [risesFrom_false_sub_true t]
      simp only [risesFrom]
      cases ht : t.headD false <;> simp [Nat.add_comm]

theorem welfordStep_closed (n : ℕ) (S Q : ℚ) (x : ℕ) (h0 : n = 0 → S = 0 ∧ Q = 0) :
    welfordStep (n, S / (n : ℚ), Q - S ^ 2 / (n : ℚ)) x =
      (n + 1, (S + (x : ℚ)) / ((n : ℚ) + 1),
        (Q + (x : ℚ) ^ 2) - (S + (x : ℚ)) ^ 2 / ((n : ℚ) + 1)) := by
  unfold welfordStep
  dsimp only
  simp only [Prod.mk.injEq]
  refine ⟨trivial, ?_, ?_⟩
  · rcases Nat.eq_zero_or_pos n with hn | hn
    · obtain ⟨hS, hQ⟩ := h0 hn
      subst hn hS
      push_cast
      norm_num
    · have hne : (n : ℚ) ≠ 0 := by positivity
      have hne1 : (n : ℚ) + 1 ≠ 0 := by positivity
      push_cast
      field_simp
      ring
  · rcases Nat.eq_zero_or_pos n with hn | hn
    · obtain ⟨hS, hQ⟩ := h0 hn
      subst hn hS hQ
      push_cast
      norm_num
    · have hne : (n : ℚ) ≠ 0 := by positivity
      have hne1 : (n : ℚ) + 1 ≠ 0 := by positivity
      push_cast
      field_simp
      ring

theorem welford_fold_closed (L : List ℕ) :
    ∀ (n : ℕ) (S Q : ℚ), (n = 0 → S = 0 ∧ Q = 0) →
      L.foldl welfordStep (n, S / (n : ℚ), Q - S ^ 2 / (n : ℚ)) =
        (n + L.length, (S + ((L.map (fun x : ℕ => (x : ℚ))).sum)) / ((n : ℚ) + L.length),
          (Q + ((L.map (fun x : ℕ => (x : ℚ) ^ 2)).sum))
            - (S + ((L.map (fun x : ℕ => (x : ℚ))).sum)) ^ 2 / ((n : ℚ) + L.length)) := by
  induction L with
  | nil =>
    intro n S Q h0
    simp
  | cons x t ih =>
    intro n S Q h0
    rw [List.foldl_cons, welfordStep_closed n S Q x h0]
    have hcast : ((n : ℚ) + 1) = ((n + 1 : ℕ) : ℚ) := by push_cast; ring
    rw [hcast]
    rw [ih (n + 1) (S + (x : ℚ)) (Q + (x : ℚ) ^ 2) (by omega)]
    simp only [List.map_cons, List.sum_cons, List.length_cons]
    simp only [Prod.mk.injEq]
    refine ⟨by omega, ?_, ?_⟩ <;>
      (push_cast
       have hden : ((n : ℚ) + 1 + (t.length : ℚ)) ≠ 0 := by positivity
       have hden2 : ((n : ℚ) + ((t.length : ℚ) + 1)) ≠ 0 := by positivity
       field_simp
       ring)

theorem welford_fold_eq_of_sums (L M : List ℕ)
    (hlen : L.length = M.length)
    (hsum : (L.map (fun x : ℕ => (x : ℚ))).sum = (M.map (fun x : ℕ => (x : ℚ))).sum)
    (hsq : (L.map (fun x : ℕ => (x : ℚ) ^ 2)).sum = (M.map (fun x : ℕ => (x : ℚ) ^ 2)).sum) :
    L.foldl welfordStep (0, 0, 0) = M.foldl welfordStep (0, 0, 0) := by
  have h0 : ((0 : ℚ) : ℚ) = (0 : ℚ) / ((0 : ℕ) : ℚ) := by norm_num
  have hL := welford_fold_closed L 0 0 0 (by intro _; exact ⟨rfl, rfl⟩)
  have hM := welford_fold_closed M 0 0 0 (by intro _; exact ⟨rfl, rfl⟩)
  have hinit : ((0 : ℕ × ℚ × ℚ) : ℕ × ℚ × ℚ) = (0, 0, 0) := rfl
  have e1 : ((0 : ℕ), (0 : ℚ) / ((0 : ℕ) : ℚ), (0 : ℚ) - (0 : ℚ) ^ 2 / ((0 : ℕ) : ℚ)) =
      ((0 : ℕ), (0 : ℚ), (0 : ℚ)) := by norm_num
  rw [← e1, hL, hM, hlen, hsum, hsq]


/-- Prepend one element to a run-length encoding. -/
def pushRun (b : Bool) (n : ℕ) : List (Bool × ℕ) → List (Bool × ℕ)
  | [] => [(b, n)]
  | (c, m) :: rest => if b = c then (b, n + m) :: rest else (b, n) :: (c, m) :: rest

/-- Run-length encoding of a flag list. -/
def runsOf : List Bool → List (Bool × ℕ)
  | [] => []
  | x :: t => pushRun x 1 (runsOf t)

/-- Lengths of the true-runs, in order. -/
def trueLens (rs : List (Bool × ℕ)) : List ℕ :=
  rs.filterMap (fun p => if p.1 then some p.2 else none)

/-- Lengths of the false-runs, in order. -/
def falseLens (rs : List (Bool × ℕ)) : List ℕ :=
  rs.filterMap (fun p => if p.1 then none else some p.2)

theorem pushRun_pushRun (b : Bool) (n : ℕ) (rs : List (Bool × ℕ)) :
    pushRun b n (pushRun b 1 rs) = pushRun b (n + 1) rs := by
  cases rs with
  | nil => simp [pushRun]
  | cons r rest =>
    obtain ⟨c, m⟩ := r
    by_cases hbc : b = c
    · subst hbc
      simp [pushRun, Nat.add_assoc]
    · simp [pushRun, hbc]

theorem runsOf_cons_head (x : Bool) (t : List Bool) :
    ∃ k rest, runsOf (x :: t) = (x, k) :: rest := by
  show ∃ k rest, pushRun x 1 (runsOf t) = (x, k) :: rest
  cases h : runsOf t with
  | nil => exact ⟨1, [], rfl⟩
  | cons r rest =>
    obtain ⟨c, m⟩ := r
    by_cases hbc : x = c
    · subst hbc
      exact ⟨1 + m, rest, by simp [pushRun]⟩
    · exact ⟨1, (c, m) :: rest, by simp [pushRun, hbc]⟩

theorem extractGo_eq (l : List Bool) :
    ∀ (b : Bool) (n : ℕ), 0 < n →
      extractGo b n l = (trueLens (pushRun b n (runsOf l)), falseLens (pushRun b n (runsOf l))) := by
  induction l with
  | nil =>
    intro b n hn
    show (if 0 < n then if b then ([n], []) else ([], [n]) else ([], [])) = _
    rw [if_pos hn]
    show _ = (trueLens [(b, n)], falseLens [(b, n)])
    cases b <;> simp [trueLens, falseLens]
  | cons x t ih =>
    intro b n hn
    show (if x = b then extractGo b (n + 1) t
      else if 0 < n then
        let r := extractGo x 1 t
        if b then (n :: r.1, r.2) else (r.1, n :: r.2)
      else extractGo x 1 t) = _
    by_cases hxb : x = b
    · rw [if_pos hxb]
      subst hxb
      rw [ih x (n + 1) (by omega)]
      show _ = (trueLens (pushRun x n (pushRun x 1 (runsOf t))),
        falseLens (pushRun x n (pushRun x 1 (runsOf t))))
      rw [pushRun_pushRun]
    · rw [if_neg hxb, if_pos hn]
      dsimp only
      rw [ih x 1 (by omega)]
      obtain ⟨k, rest, hr⟩ := runsOf_cons_head x t
      show _ = (trueLens (pushRun b n (runsOf (x :: t))), falseLens (pushRun b n (runsOf (x :: t))))
      rw [hr]
      show _ = (trueLens (pushRun b n ((x, k) :: rest)), falseLens (pushRun b n ((x, k) :: rest)))
      have hbx : ¬b = x := fun h => hxb h.symm
      rw [show pushRun b n ((x, k) :: rest) = (b, n) :: (x, k) :: rest by simp [pushRun, hbx]]
      have hrr : runsOf (x :: t) = (x, k) :: rest := hr
      have h1 : pushRun x 1 (runsOf t) = (x, k) :: rest := hr
      rw [h1]
      cases b with
      | false => simp [trueLens, falseLens]
      | true => simp [trueLens, falseLens]

/-- Append one element at the back of a run-length encoding. -/
def appendRun : List (Bool × ℕ) → Bool → List (Bool × ℕ)
  | [], x => [(x, 1)]
  | [(c, m)], x => if c = x then [(c, m + 1)] else [(c, m), (x, 1)]
  | r :: s :: rs, x => r :: appendRun (s :: rs) x

theorem pushRun_appendRun (rs : List (Bool × ℕ)) (y x : Bool) :
    pushRun y 1 (appendRun rs x) = appendRun (pushRun y 1 rs) x := by
  cases rs with
  | nil =>
    by_cases hyx : y = x
    · subst hyx; simp [pushRun, appendRun]
    · simp [pushRun, appendRun, hyx, Ne.symm hyx]
  | cons r rest =>
    obtain ⟨c, m⟩ := r
    cases rest with
    | nil =>
      by_cases hcx : c = x
      · subst hcx
        by_cases hyc : y = c
        · subst hyc
          simp [pushRun, appendRun, Nat.add_assoc]
        · simp [pushRun, appendRun, hyc]
      · by_cases hyc : y = c
        · subst hyc
          simp [pushRun, appendRun, hcx]
        · simp [pushRun, appendRun, hyc, hcx]
    | cons s rest2 =>
      obtain ⟨d, k⟩ := s
      by_cases hyc : y = c
      · subst hyc
        simp [pushRun, appendRun]
      · simp [pushRun, appendRun, hyc]

theorem appendRun_snoc (rs : List (Bool × ℕ)) (r : Bool × ℕ) (x : Bool) (hrs : rs ≠ []) :
    appendRun (rs ++ [r]) x = rs ++ appendRun [r] x := by
  induction rs with
  | nil => exact absurd rfl hrs
  | cons s rs ih =>
    cases rs with
    | nil =>
      obtain ⟨c, m⟩ := r
      simp [appendRun]
    | cons s2 rs2 =>
      rw [List.cons_append, List.cons_append]
      show s :: appendRun ((s2 :: rs2) ++ [r]) x = _
      rw [ih (by simp)]
      simp

theorem appendRun_reverse (rs : List (Bool × ℕ)) (x : Bool) :
    appendRun rs.reverse x = (pushRun x 1 rs).reverse := by
  cases rs with
  | nil => rfl
  | cons r rest
  =>
    obtain ⟨c, m⟩ := r
    rw [List.reverse_cons]
    by_cases hrest : rest.reverse = []
    · rw [hrest]
      simp only [List.nil_append]
      have : rest = [] := by
        cases rest with
        | nil => rfl
        | cons a b => simp at hrest
      subst this
      by_cases hcx : c = x
      · subst hcx
        simp [appendRun, pushRun, Nat.add_comm]
      · simp only [appendRun, pushRun, if_neg hcx, if_neg (Ne.symm hcx)]
        rfl
    · rw [appendRun_snoc _ _ _ hrest]
      by_cases hxc : x = c
      · subst hxc
        rw [show pushRun x 1 ((x, m) :: rest) = (x, 1 + m) :: rest by simp [pushRun]]
        rw [List.reverse_cons]
        simp [appendRun, Nat.add_comm]
      · rw [show pushRun x 1 ((c, m) :: rest) = (x, 1) :: (c, m) :: rest by
          simp [pushRun, hxc]]
        rw [List.reverse_cons, List.reverse_cons]
        simp [appendRun, Ne.symm hxc]

theorem runsOf_reverse (l : List Bool) : runsOf l.reverse = (runsOf l).reverse := by
  induction l with
  | nil => rfl
  | cons x t ih =>
    rw [List.reverse_cons]
    have hsnoc : runsOf (t.reverse ++ [x]) = appendRun (runsOf t.reverse) x := by
      clear ih
      induction t.reverse with
      | nil => rfl
      | cons y s ihs =>
        rw [List.cons_append]
        show pushRun y 1 (runsOf (s ++ [x])) = appendRun (pushRun y 1 (runsOf s)) x
        rw [ihs, pushRun_appendRun]
    rw [hsnoc, ih, appendRun_reverse]
    rfl


theorem extractGo_false_zero (l : List Bool) :
    extractGo false 0 l = (trueLens (runsOf l), falseLens (runsOf l)) := by
  cases l with
  | nil => rfl
  | cons x t =>
    show (if x = false then extractGo false (0 + 1) t
      else if 0 < 0 then
        let r := extractGo x 1 t
        if false then ((0 : ℕ) :: r.1, r.2) else (r.1, (0 : ℕ) :: r.2)
      else extractGo x 1 t) = _
    by_cases hx : x = false
    · rw [if_pos hx]
      subst hx
      exact extractGo_eq t false 1 (by omega)
    · rw [if_neg hx, if_neg (by omega)]
      rw [extractGo_eq t x 1 (by omega)]
      rfl

theorem trueLens_reverse (rs : List (Bool × ℕ)) :
    trueLens rs.reverse = (trueLens rs).reverse := by
  unfold trueLens
  induction rs with
  | nil => rfl
  | cons r rest ih =>
    rw [List.reverse_cons, List.filterMap_append, ih, List.filterMap_cons]
    cases h : (fun (p : Bool × ℕ) => if p.1 then some p.2 else none) r with
    | none => simp [List.filterMap_cons, h]
    | some v => simp [List.filterMap_cons, h]

theorem falseLens_reverse (rs : List (Bool × ℕ)) :
    falseLens rs.reverse = (falseLens rs).reverse := by
  unfold falseLens
  induction rs with
  | nil => rfl
  | cons r rest ih =>
    rw [List.reverse_cons, List.filterMap_append, ih, List.filterMap_cons]
    cases h : (fun (p : Bool × ℕ) => if p.1 then none else some p.2) r with
    | none => simp [List.filterMap_cons, h]
    | some v => simp [List.filterMap_cons, h]

theorem extractGo_reverse (l : List Bool) :
    extractGo false 0 l.reverse =
      ((extractGo false 0 l).1.reverse, (extractGo false 0 l).2.reverse) := by
  rw [extractGo_false_zero, extractGo_false_zero, runsOf_reverse,
    trueLens_reverse, falseLens_reverse]

theorem median_perm (l m : List ℕ) (h : l.Perm m) : median l = median m := by
  have hs : l.insertionSort (· ≤ ·) = m.insertionSort (· ≤ ·) := by
    exact @List.eq_of_perm_of_sorted ℕ (· ≤ ·) _ _ _
      ((List.perm_insertionSort _ l).trans (h.trans (List.perm_insertionSort _ m).symm))
      (List.sorted_insertionSort _ l) (List.sorted_insertionSort _ m)
  have hlen := h.length_eq
  have hempty : l.isEmpty = m.isEmpty := by
    cases l with
    | nil =>
      cases m with
      | nil => rfl
      | cons b s => simp at hlen
    | cons a t =>
      cases m with
      | nil => simp at hlen
      | cons b s => rfl
  unfold median
  dsimp only
  rw [hempty, hs]


theorem isEmpty_reverse {α : Type} (l : List α) : l.reverse.isEmpty = l.isEmpty := by
  cases l with
  | nil => rfl
  | cons a t =>
    have h : t.reverse ++ [a] ≠ [] := by simp
    rw [List.reverse_cons]
    cases he : (t.reverse ++ [a]).isEmpty
    · rfl
    · rw [List.isEmpty_iff] at he
      exact absurd he h

theorem scoreOfCounts_reverse (sqrtA : ℚ → ℚ) (counts : List ℕ) :
    scoreOfCounts sqrtA counts.reverse = scoreOfCounts sqrtA counts := by
  unfold scoreOfCounts
  dsimp only
  have hcount : counts.reverse.countP (fun c => decide (c = 0)) =
      counts.countP (fun c => decide (c = 0)) := counts.reverse_perm.countP_eq _
  have hwel : counts.reverse.foldl welfordStep (0, 0, 0) =
      counts.foldl welfordStep (0, 0, 0) := by
    apply welford_fold_eq_of_sums
    · exact counts.length_reverse
    · rw [List.map_reverse, List.sum_reverse]
    · rw [List.map_reverse, List.sum_reverse]
  rw [hcount, hwel]
  generalize counts.foldl welfordStep (0, 0, 0) = W
  rw [List.map_reverse, extractGo_reverse]
  generalize extractGo false 0
    (counts.map (fun (c : ℕ) => decide (max W.2.1 1 ≤ (c : ℚ)))) = R
  rw [isEmpty_reverse, isEmpty_reverse, median_perm R.1.reverse R.1 (List.reverse_perm _),
    median_perm R.2.reverse R.2 (List.reverse_perm _)]


theorem map_range_reverse {α : Type} (g : ℕ → α) (n : ℕ) :
    ((List.range n).map g).reverse = (List.range n).map (fun (y : ℕ) => g (n - 1 - y)) := by
  apply List.ext_getElem
  · simp
  · intro i h1 h2
    simp only [List.getElem_reverse, List.getElem_map, List.getElem_range,
      List.length_map, List.length_range]

theorem rot90_rot90_pix (image : GrayImg) (a b : ℕ) :
    (rotate_90_clockwise (rotate_90_clockwise image)).pix a b =
      image.pix (image.width - 1 - a) (image.height - 1 - b) := rfl

theorem rowFlags_rot90sq (image : GrayImg) (options : VerticalDetectOptions)
    (bc bw k y : ℕ) (hw : image.width = bc * bw) (hk : k < bc) :
    rowFlags (rotate_90_clockwise (rotate_90_clockwise image)) options
        (k * bw) (k * bw + bw) y =
      (rowFlags image options ((bc - 1 - k) * bw) ((bc - 1 - k) * bw + bw)
        (image.height - 1 - y)).reverse := by
  unfold rowFlags
  rw [show k * bw + bw - k * bw = bw from by omega]
  rw [show (bc - 1 - k) * bw + bw - (bc - 1 - k) * bw = bw from by omega]
  apply List.ext_getElem
  · simp
  · intro i h1 h2
    have hi : i < bw := by
      simpa using h1
    simp only [List.getElem_reverse, List.getElem_map, List.getElem_range,
      List.length_map, List.length_range]
    rw [rot90_rot90_pix]
    have hprod : (bc - 1 - k) * bw + k * bw + bw = bc * bw := by
      have h1b : bc - 1 - k + k + 1 = bc := by omega
      calc (bc - 1 - k) * bw + k * bw + bw = (bc - 1 - k + k + 1) * bw := by ring
      _ = bc * bw := by rw [h1b]
    have hcoord : image.width - 1 - (k * bw + i) = (bc - 1 - k) * bw + (bw - 1 - i) := by
      have hA : (bc - 1 - k) * bw + k * bw + bw = image.width := by rw [hprod, ← hw]
      omega
    rw [hcoord]

theorem intersectionsRow_rot90sq (image : GrayImg) (options : VerticalDetectOptions)
    (bc bw k y : ℕ) (hw : image.width = bc * bw) (hk : k < bc) :
    intersectionsRow (rotate_90_clockwise (rotate_90_clockwise image)) options
        (k * bw) (k * bw + bw) y =
      intersectionsRow image options ((bc - 1 - k) * bw) ((bc - 1 - k) * bw + bw)
        (image.height - 1 - y) := by
  unfold intersectionsRow
  rw [rowFlags_rot90sq image options bc bw k y hw hk]
  rw [runStep_fold, runStep_fold, risesFrom_reverse]

theorem rowCounts_rot90sq (image : GrayImg) (options : VerticalDetectOptions)
    (bc bw k : ℕ) (hw : image.width = bc * bw) (hk : k < bc) :
    rowCounts (rotate_90_clockwise (rotate_90_clockwise image)) options
        (k * bw) (k * bw + bw) image.height =
      (rowCounts image options ((bc - 1 - k) * bw) ((bc - 1 - k) * bw + bw)
        image.height).reverse := by
  unfold rowCounts
  rw [map_range_reverse]
  apply List.map_congr_left
  intro y _
  exact intersectionsRow_rot90sq image options bc bw k y hw hk

theorem blockScore_rot90sq (sqrtA : ℚ → ℚ) (image : GrayImg)
    (options : VerticalDetectOptions) (bc bw k : ℕ)
    (hw : image.width = bc * bw) (hk : k < bc) :
    blockScore sqrtA (rotate_90_clockwise (rotate_90_clockwise image)) options
        (k * bw) (k * bw + bw) image.height =
      blockScore sqrtA image options ((bc - 1 - k) * bw) ((bc - 1 - k) * bw + bw)
        image.height := by
  unfold blockScore
  rw [rowCounts_rot90sq image options bc bw k hw hk, scoreOfCounts_reverse]


theorem compute_linear_score_rot90sq (sqrtA : ℚ → ℚ) (image : GrayImg)
    (options : VerticalDetectOptions)
    (hdiv : max options.block_count 1 ∣ image.width) :
    compute_linear_score sqrtA (rotate_90_clockwise (rotate_90_clockwise image)) options =
      compute_linear_score sqrtA image options := by
  obtain ⟨bw, hw⟩ := hdiv
  unfold compute_linear_score
  rw [show (rotate_90_clockwise (rotate_90_clockwise image)).width = image.width from rfl]
  rw [show (rotate_90_clockwise (rotate_90_clockwise image)).height = image.height from rfl]
  by_cases h0 : image.width = 0 ∨ image.height = 0
  · rw [if_pos h0, if_pos h0]
  · rw [if_neg h0, if_neg h0]
    dsimp only
    have hbc : 0 < max options.block_count 1 := lt_of_lt_of_le one_pos (le_max_right _ 1)
    have hbww : image.width / max options.block_count 1 = bw := by
      rw [hw]
      exact Nat.mul_div_cancel_left bw hbc
    rw [hbww]
    by_cases hbw0 : bw = 0
    · rw [if_pos hbw0, if_pos hbw0]
    · rw [if_neg hbw0, if_neg hbw0]
      have hend : ∀ blk ∈ List.range (max options.block_count 1),
          (if blk = max options.block_count 1 - 1 then image.width else blk * bw + bw) =
            blk * bw + bw := by
        intro blk hblk
        by_cases hb : blk = max options.block_count 1 - 1
        · rw [if_pos hb, hb, hw]
          have h1b : max options.block_count 1 - 1 + 1 = max options.block_count 1 := by omega
          calc max options.block_count 1 * bw
              = (max options.block_count 1 - 1 + 1) * bw := by rw [h1b]
          _ = (max options.block_count 1 - 1) * bw + bw := by ring
        · rw [if_neg hb]
      have hmapL : (List.range (max options.block_count 1)).map (fun (blk : ℕ) =>
          blockScore sqrtA (rotate_90_clockwise (rotate_90_clockwise image)) options
            (blk * bw)
            (if blk = max options.block_count 1 - 1 then image.width else blk * bw + bw)
            image.height) =
          ((List.range (max options.block_count 1)).map (fun (blk : ℕ) =>
            blockScore sqrtA image options (blk * bw) (blk * bw + bw)
              image.height)).reverse := by
        rw [map_range_reverse]
        apply List.map_congr_left
        intro blk hblk
        have hblt : blk < max options.block_count 1 := List.mem_range.mp hblk
        rw [hend blk hblk]
        exact blockScore_rot90sq sqrtA image options (max options.block_count 1) bw blk hw hblt
      have hmapR : (List.range (max options.block_count 1)).map (fun (blk : ℕ) =>
          blockScore sqrtA image options (blk * bw)
            (if blk = max options.block_count 1 - 1 then image.width else blk * bw + bw)
            image.height) =
          (List.range (max options.block_count 1)).map (fun (blk : ℕ) =>
            blockScore sqrtA image options (blk * bw) (blk * bw + bw) image.height) := by
        apply List.map_congr_left
        intro blk hblk
        rw [hend blk hblk]
      rw [hmapL, hmapR]
      generalize (List.range (max options.block_count 1)).map (fun (blk : ℕ) =>
        blockScore sqrtA image options (blk * bw) (blk * bw + bw) image.height) = L
      rw [isEmpty_reverse, List.sum_reverse, List.length_reverse]


theorem ratClamp_eq_self (q : ℚ) (h0 : 0 ≤ q) (h1 : q ≤ 1) : ratClamp q 0 1 = q := by
  unfold ratClamp
  rw [max_eq_left h0, min_eq_left h1]

theorem scoreOfCounts_nonneg (sqrtA : ℚ → ℚ) (counts : List ℕ) :
    0 ≤ scoreOfCounts sqrtA counts := by
  unfold scoreOfCounts
  dsimp only
  split_ifs with h
  · exact le_refl 0
  all_goals
    unfold ratClamp
    exact le_min (le_max_right _ 0) (by norm_num)

theorem compute_linear_score_nonneg (sqrtA : ℚ → ℚ) (image : GrayImg)
    (options : VerticalDetectOptions) : 0 ≤ compute_linear_score sqrtA image options := by
  unfold compute_linear_score
  dsimp only
  split_ifs with h1 h2 h3
  · exact le_refl 0
  · exact le_refl 0
  · exact le_refl 0
  · apply div_nonneg
    · apply List.sum_nonneg
      intro x hx
      obtain ⟨blk, _, hblk⟩ := List.mem_map.mp hx
      rw [← hblk]
      unfold blockScore
      exact scoreOfCounts_nonneg _ _
    · positivity

/-- C8 (amended): when both dimensions are non-zero, the effective
block count divides the width, and the two linear scores sum to at
least `1e-3`, the vertical probabilities of an image and of its
90-degree rotation sum to `1` within `1e-6`.  (The divisibility makes
the 180-degree rotation block-compatible, under which the linear score
is invariant; without these hypotheses the property fails, see the
counterexample.) -/
theorem detect_vertical_probability_rotation_sum (sqrtA : ℚ → ℚ) (image : GrayImg)
    (options : VerticalDetectOptions)
    (hw : image.width ≠ 0) (hh : image.height ≠ 0)
    (hdiv : max options.block_count 1 ∣ image.width)
    (hsum : 1/1000 ≤ compute_linear_score sqrtA image options +
      compute_linear_score sqrtA (rotate_90_clockwise image) options) :
    ∃ r1 r2, detect_vertical_probability sqrtA image options = .ok r1 ∧
      detect_vertical_probability sqrtA (rotate_90_clockwise image) options = .ok r2 ∧
      |r1.vertical_probability + r2.vertical_probability - 1| ≤ 1/1000000 := by
  have hA : 0 ≤ compute_linear_score sqrtA image options :=
    compute_linear_score_nonneg sqrtA image options
  have hB : 0 ≤ compute_linear_score sqrtA (rotate_90_clockwise image) options :=
    compute_linear_score_nonneg sqrtA (rotate_90_clockwise image) options
  set A := compute_linear_score sqrtA image options with hAdef
  set B := compute_linear_score sqrtA (rotate_90_clockwise image) options with hBdef
  have hrr : compute_linear_score sqrtA (rotate_90_clockwise (rotate_90_clockwise image))
      options = A := compute_linear_score_rot90sq sqrtA image options hdiv
  have hden : (0 : ℚ) < A + B + 1/1000000000 := by
    have : (0 : ℚ) < 1/1000000000 := by norm_num
    linarith
  have hc1 : ¬(image.width = 0 ∨ image.height = 0) := by tauto
  have hc2 : ¬((rotate_90_clockwise image).width = 0 ∨
      (rotate_90_clockwise image).height = 0) := by
    show ¬(image.height = 0 ∨ image.width = 0)
    tauto
  refine ⟨⟨ratClamp (B / (A + B + 1/1000000000)) 0 1, A, B,
      decide (options.vertical_threshold ≤ ratClamp (B / (A + B + 1/1000000000)) 0 1)⟩,
    ⟨ratClamp (A / (B + A + 1/1000000000)) 0 1, B, A,
      decide (options.vertical_threshold ≤ ratClamp (A / (B + A + 1/1000000000)) 0 1)⟩,
    ?_, ?_, ?_⟩
  · unfold detect_vertical_probability
    rw [if_neg hc1]
  · unfold detect_vertical_probability
    rw [if_neg hc2]
    dsimp only
    rw [hrr]
  · dsimp only
    have hcl1 : ratClamp (B / (A + B + 1/1000000000)) 0 1 = B / (A + B + 1/1000000000) := by
      apply ratClamp_eq_self
      · exact div_nonneg hB (le_of_lt hden)
      · rw [div_le_one hden]
        linarith
    have hden2 : (0 : ℚ) < B + A + 1/1000000000 := by linarith
    have hcl2 : ratClamp (A / (B + A + 1/1000000000)) 0 1 = A / (B + A + 1/1000000000) := by
      apply ratClamp_eq_self
      · exact div_nonneg hA (le_of_lt hden2)
      · rw [div_le_one hden2]
        linarith
    rw [hcl1, hcl2]
    have hx : B / (A + B + 1/1000000000) + A / (B + A + 1/1000000000) - 1 =
        -((1/1000000000) / (A + B + 1/1000000000)) := by
      rw [show B + A + 1/1000000000 = A + B + 1/1000000000 by ring]
      field_simp
      ring
    rw [hx, abs_neg, abs_of_nonneg (div_nonneg (by norm_num) (le_of_lt hden))]
    rw [div_le_iff₀ hden]
    linarith


/-- Options with a single block, used by the C8 witness. -/
def c8WitOpts : VerticalDetectOptions := ⟨128, 1, 1/2⟩

theorem c8wit_counts : rowCounts c8Img c8WitOpts 0 1 1 = [0] := by decide

theorem c8wit_counts_rot :
    rowCounts (rotate_90_clockwise c8Img) c8WitOpts 0 1 1 = [0] := by decide

theorem c8wit_welford : List.foldl welfordStep (0, 0, 0) [0] = ((1 : ℕ), (0 : ℚ), (0 : ℚ)) := by
  rw [List.foldl_cons, List.foldl_nil]
  unfold welfordStep
  norm_num

theorem c8wit_soc : scoreOfCounts (fun q => q) [0] = 1/5 := by
  unfold scoreOfCounts
  dsimp only
  rw [c8wit_welford]
  norm_num [extractGo, median, ratClamp]

theorem c8wit_score : compute_linear_score (fun q => q) c8Img c8WitOpts = 1/5 := by
  unfold compute_linear_score
  rw [if_neg (by norm_num [c8Img])]
  dsimp only
  rw [show max c8WitOpts.block_count 1 = 1 from rfl]
  rw [show c8Img.width / 1 = 1 from rfl]
  rw [if_neg (by norm_num)]
  rw [show List.range 1 = [0] from rfl]
  rw [List.map_cons, List.map_nil]
  rw [show ((if (0 : ℕ) = 1 - 1 then c8Img.width else 0 * 1 + 1)) = 1 from rfl]
  unfold blockScore
  rw [show (0 : ℕ) * 1 = 0 from rfl]
  rw [show c8Img.height = 1 from rfl, c8wit_counts, c8wit_soc]
  norm_num

theorem c8wit_score_rot :
    compute_linear_score (fun q => q) (rotate_90_clockwise c8Img) c8WitOpts = 1/5 := by
  unfold compute_linear_score
  rw [if_neg (by norm_num [c8Img, rotate_90_clockwise])]
  dsimp only
  rw [show max c8WitOpts.block_count 1 = 1 from rfl]
  rw [show (rotate_90_clockwise c8Img).width / 1 = 1 from rfl]
  rw [if_neg (by norm_num)]
  rw [show List.range 1 = [0] from rfl]
  rw [List.map_cons, List.map_nil]
  rw [show ((if (0 : ℕ) = 1 - 1 then (rotate_90_clockwise c8Img).width else 0 * 1 + 1)) = 1
    from rfl]
  unfold blockScore
  rw [show (0 : ℕ) * 1 = 0 from rfl]
  rw [show (rotate_90_clockwise c8Img).height = 1 from rfl, c8wit_counts_rot, c8wit_soc]
  norm_num

/-- Witness for C8 at a concrete input: the 1×1 white image with
`block_count = 1`, where both scores are `1/5`. -/
theorem detect_vertical_probability_rotation_sum_witness :
    (c8Img.width ≠ 0 ∧ c8Img.height ≠ 0 ∧
      max c8WitOpts.block_count 1 ∣ c8Img.width ∧
      1/1000 ≤ compute_linear_score (fun q => q) c8Img c8WitOpts +
        compute_linear_score (fun q => q) (rotate_90_clockwise c8Img) c8WitOpts) ∧
    (∃ r1 r2, detect_vertical_probability (fun q => q) c8Img c8WitOpts = .ok r1 ∧
      detect_vertical_probability (fun q => q) (rotate_90_clockwise c8Img) c8WitOpts = .ok r2 ∧
      |r1.vertical_probability + r2.vertical_probability - 1| ≤ 1/1000000) := by
  have h1 : c8Img.width ≠ 0 := by norm_num [c8Img]
  have h2 : c8Img.height ≠ 0 := by norm_num [c8Img]
  have h3 : max c8WitOpts.block_count 1 ∣ c8Img.width := ⟨1, rfl⟩
  have h4 : 1/1000 ≤ compute_linear_score (fun q => q) c8Img c8WitOpts +
      compute_linear_score (fun q => q) (rotate_90_clockwise c8Img) c8WitOpts := by
    rw [c8wit_score, c8wit_score_rot]
    norm_num
  exact ⟨⟨h1, h2, h3, h4⟩,
    detect_vertical_probability_rotation_sum (fun q => q) c8Img c8WitOpts h1 h2 h3 h4⟩

end VerticalDetect

end SuperbookPdf
